import Mathlib

/-!
# Verification of `migrate`

A shallow embedding of the Go package `migrate` (`migrate.go`, `postgres.go`,
`file_migration.go`, and the test backend of `migrate_test.go`), with theorems
about the orchestration function `Do`, the PostgreSQL backend and the file
migrations.

Conventions of the embedding

* A Go `error` is `Option GoError`; `none` is `nil`.
* A backend is a record of state transformers over a state type `σ`; every
  method takes the state before the call and returns its Go results together
  with the state after the call.
* `Do` records every call it makes on the backend (and every
  `time.Sleep`) in a trace, in program order.
* The only unbounded loop is the lock-acquisition loop of `Do`; it is driven
  by a fuel argument that bounds the number of `Lock` attempts.
* `logf` only writes to the package logger and has no influence on control
  flow or on the backend; it is not part of the embedding.
* Lengths and counters are natural numbers; no run considered here comes near
  the range of a Go `int`.
-/

namespace Migrate

/-! ## Errors -/

/-- Go error values.  `errorString` is the value built by `errors.New` and
`fmt.Errorf`, `Error` is the struct `migrate.Error` with its fields `ID` and
`Err`, and `foreign` is an error of a dynamic type declared outside this
package (a driver or I/O error), given by its type name and message. -/
inductive GoError where
  | errorString (s : String)
  | Error (ID : String) (Err : GoError)
  | foreign (typ : String) (msg : String)
  deriving DecidableEq, Repr

namespace GoError

/-- The method `Error() string` of an error value; for `migrate.Error` it is
`fmt.Sprintf("migrate failed for %s: %s", m.ID, m.Err.Error())`. -/
def message : GoError → String
  | errorString s => s
  | Error ID Err => "migrate failed for " ++ ID ++ ": " ++ message Err
  | foreign _ msg => msg

end GoError

/-! ## Interfaces -/

/-- The interface `Migration`: `ID()` and `Migrate(e Execer)`.  The type `ε`
is the state of the `Execer` handed to `Migrate`. -/
structure Migration (ε : Type) where
  ID : String
  Migrate : ε → Option GoError × ε

/-- The interface `Database`, over backend state `σ`.  `Migrations` returns
both Go results, the slice and the error. -/
structure Database (σ ε : Type) where
  Lock : σ → Option GoError × σ
  Unlock : σ → Option GoError × σ
  Migrations : σ → (List String × Option GoError) × σ
  Apply : Migration ε → σ → Option GoError × σ

/-- The variable `LockRetryInterval = 2 * time.Second`, in nanoseconds. -/
def LockRetryInterval : Nat := 2 * 1000000000

/-- One observable action of `Do`: a call on the backend or a sleep.  `Lock`
carries whether the call returned `nil`. -/
inductive Event (ε : Type) where
  | Lock (ok : Bool)
  | Sleep (d : Nat)
  | Migrations
  | Apply (m : Migration ε)
  | Unlock

/-- How a Go function call ends: it returns its `error` result, or it
panics. -/
inductive Outcome where
  | returned (err : Option GoError)
  | panicked (msg : String)
  deriving DecidableEq, Repr

/-- A finished run of `Do`: how it ended, the backend state it left, and the
actions it performed. -/
structure Run (σ ε : Type) where
  result : Outcome
  state : σ
  trace : List (Event ε)

/-! ## `Do` -/

/-- The error of line 98,
`fmt.Errorf("more migrations have been applied (%d) than there exist (%d)", a, n)`. -/
def tooManyError (a n : Nat) : GoError :=
  .errorString ("more migrations have been applied (" ++ toString a
    ++ ") than there exist (" ++ toString n ++ ")")

/-- The error of line 103,
`fmt.Errorf("unknown migration encountered, expected %s but was %s", m, id)`. -/
def unknownError (m id : String) : GoError :=
  .errorString ("unknown migration encountered, expected " ++ m ++ " but was " ++ id)

/-- Lines 74-83 of `migrate.go`: call `Lock` until it returns `nil`, sleeping
after every failure.  `none` when the fuel is used up before a `Lock`
succeeds. -/
def acquire {σ ε : Type} (db : Database σ ε) : Nat → σ → Option (σ × List (Event ε))
  | 0, _ => none
  | fuel + 1, s =>
    match db.Lock s with
    | (some _, s') =>
      match acquire db fuel s' with
      | none => none
      | some (s'', tr) => some (s'', Event.Lock false :: Event.Sleep LockRetryInterval :: tr)
    | (none, s') => some (s', [Event.Lock true])

/-- Lines 101-105: `for i, m := range applied { if m != migrations[i].ID() ... }`,
started at index `i` with the rest of `applied`.  `none` when the loop runs to
its end; indexing past the end of `migrations` panics, as in Go. -/
def compareApplied {ε : Type} (migrations : List (Migration ε)) : Nat → List String → Option Outcome
  | _, [] => none
  | i, m :: rest =>
    match migrations[i]? with
    | none => some (.panicked "index out of range")
    | some mig =>
      if m != mig.ID then some (.returned (some (unknownError m mig.ID)))
      else compareApplied migrations (i + 1) rest

/-- Lines 114-119: apply the pending migrations in order and stop at the first
failure, which is wrapped as `Error{migration.ID(), err}`. -/
def applyPending {σ ε : Type} (db : Database σ ε) :
    List (Migration ε) → σ → Option GoError × σ × List (Event ε)
  | [], s => (none, s, [])
  | migration :: rest, s =>
    match db.Apply migration s with
    | (some err, s') => (some (.Error migration.ID err), s', [Event.Apply migration])
    | (none, s') =>
      let (r, s'', tr) := applyPending db rest s'
      (r, s'', Event.Apply migration :: tr)

/-- Lines 92-120: the body of `Do` that runs while the lock is held. -/
def migrateLocked {σ ε : Type} (db : Database σ ε) (migrations : List (Migration ε)) (s : σ) :
    Outcome × σ × List (Event ε) :=
  match db.Migrations s with
  | ((_, some err), s1) => (.returned (some err), s1, [Event.Migrations])
  | ((applied, none), s1) =>
    if applied.length > migrations.length then
      (.returned (some (tooManyError applied.length migrations.length)), s1, [Event.Migrations])
    else
      match compareApplied migrations 0 applied with
      | some out => (out, s1, [Event.Migrations])
      | none =>
        if applied.length == migrations.length then
          (.returned none, s1, [Event.Migrations])
        else
          let (r, s2, tr) := applyPending db (migrations.drop applied.length) s1
          (.returned r, s2, Event.Migrations :: tr)

/-- The function `Do(db, migrations)`.  The deferred function of lines 85-90
runs when the body has ended, whatever its outcome, and the result of `Unlock`
is only logged. -/
def Do {σ ε : Type} (db : Database σ ε) (migrations : List (Migration ε)) (fuel : Nat) (s : σ) :
    Option (Run σ ε) :=
  match acquire db fuel s with
  | none => none
  | some (s1, tr1) =>
    let (out, s2, tr2) := migrateLocked db migrations s1
    let (_, s3) := db.Unlock s2
    some { result := out, state := s3, trace := tr1 ++ tr2 ++ [Event.Unlock] }

/-- The calls `db.Apply(m)` of a trace, in order. -/
def applyCalls {ε : Type} : List (Event ε) → List (Migration ε)
  | [] => []
  | Event.Apply m :: tr => m :: applyCalls tr
  | _ :: tr => applyCalls tr

/-- The number of calls `db.Unlock()` in a trace. -/
def unlockCount {ε : Type} : List (Event ε) → Nat
  | [] => 0
  | Event.Unlock :: tr => unlockCount tr + 1
  | _ :: tr => unlockCount tr

/-- The number of calls `db.Lock()` of a trace that returned `nil`. -/
def lockedCount {ε : Type} : List (Event ε) → Nat
  | [] => 0
  | Event.Lock true :: tr => lockedCount tr + 1
  | _ :: tr => lockedCount tr

/-- The trace of `n` failed calls of `Lock`, each followed by a sleep, and then
the successful call. -/
def lockTrace (ε : Type) : Nat → List (Event ε)
  | 0 => [Event.Lock true]
  | n + 1 => Event.Lock false :: Event.Sleep LockRetryInterval :: lockTrace ε n

/-! ## Behaviour of a backend, stated without reference to `Do` -/

/-- The backend state after `n` consecutive calls of `Lock`. -/
def lockAttempts {σ ε : Type} (db : Database σ ε) : Nat → σ → σ
  | 0, s => s
  | n + 1, s => lockAttempts db n (db.Lock s).2

/-- Starting in state `s`, the first `n` calls of `Lock` fail and call `n + 1`
succeeds. -/
def AcquiresAfter {σ ε : Type} (db : Database σ ε) (s : σ) (n : Nat) : Prop :=
  (∀ j, j < n → (db.Lock (lockAttempts db j s)).1 ≠ none) ∧
    (db.Lock (lockAttempts db n s)).1 = none

instance {σ ε : Type} (db : Database σ ε) (s : σ) (n : Nat) : Decidable (AcquiresAfter db s n) :=
  inferInstanceAs (Decidable ((∀ j, j < n → (db.Lock (lockAttempts db j s)).1 ≠ none) ∧
    (db.Lock (lockAttempts db n s)).1 = none))

/-- The backend state right after the successful call of `Lock`. -/
def lockedState {σ ε : Type} (db : Database σ ε) (s : σ) (n : Nat) : σ :=
  (db.Lock (lockAttempts db n s)).2

/-- The backend state after calling `Apply` on each migration of a list in
turn. -/
def afterApplies {σ ε : Type} (db : Database σ ε) : List (Migration ε) → σ → σ
  | [], s => s
  | m :: rest, s => afterApplies db rest (db.Apply m s).2

/-- Calling `Apply` on each migration of a list in turn, every call returns
`nil`. -/
def AppliesSucceed {σ ε : Type} (db : Database σ ε) : List (Migration ε) → σ → Prop
  | [], _ => True
  | m :: rest, s => (db.Apply m s).1 = none ∧ AppliesSucceed db rest (db.Apply m s).2

/-! ## Backends used to run `Do` on concrete inputs -/

/-- The backend `TestDatabase` of `migrate_test.go`. -/
structure TestDatabase where
  locked : Bool
  unlocked : Bool
  migrations : List String
  count : Nat
  deriving DecidableEq, Repr

/-- The migration `TestMigration{id: id}` of `migrate_test.go`; its `Migrate`
returns `nil` and leaves the `Execer` alone (it sets the migration's own flag
`migrated`, which nothing reads). -/
def TestMigration (ε : Type) (id : String) : Migration ε :=
  { ID := id, Migrate := fun e => (none, e) }

/-- The methods of `TestDatabase`; `Apply` counts the call, runs the migration
with the database itself as `Execer`, and appends the identifier. -/
def testDatabase : Database TestDatabase TestDatabase where
  Lock t := (none, { t with locked := true })
  Unlock t := (none, { t with unlocked := true })
  Migrations t := ((t.migrations, none), t)
  Apply m t :=
    let t1 := { t with count := t.count + 1 }
    let t2 := (m.Migrate t1).2
    (none, { t2 with migrations := t2.migrations ++ [m.ID] })

/-- State of a scripted backend: how many calls of `Lock` still fail, the
recorded history, the error `Migrations` reports, the identifiers whose
`Apply` fails, the error `Unlock` reports, and whether the lock is held. -/
structure Scripted where
  lockFailures : Nat
  history : List String
  listError : Option GoError
  failing : List String
  unlockError : Option GoError
  held : Bool
  deriving DecidableEq, Repr

/-- A scripted backend, an implementation of `Database` written for the
examples: it follows the script in its state and records an identifier only
when `Apply` succeeds. -/
def scripted : Database Scripted Unit where
  Lock s :=
    if s.lockFailures = 0 then (none, { s with held := true })
    else (some (.errorString "lock not available"), { s with lockFailures := s.lockFailures - 1 })
  Unlock s := (s.unlockError, { s with held := false })
  Migrations s := ((s.history, s.listError), s)
  Apply m s :=
    if m.ID ∈ s.failing then (some (.foreign "pq.Error" "syntax error"), s)
    else (none, { s with history := s.history ++ [m.ID] })

/-- The scripted state with the given history and failing identifiers, no
lock contention and no other error. -/
def Scripted.start (history failing : List String) : Scripted :=
  { lockFailures := 0, history := history, listError := none, failing := failing,
    unlockError := none, held := false }

/-! ## The PostgreSQL backend (`postgres.go`)

The database server and package `database/sql` are outside the repository.
They are modelled by the types `Store`, `DB` and `Tx` and the operations on
them below: a transaction works on its own copy of the contents, which
replaces the committed contents on `Commit`.  Any call of the driver may fail
for reasons of its own (contention, a lost connection); the list `faults` of a
`DB` says what happens to the coming calls, one entry per call, and a call
past the end of the list is not disturbed. -/

/-- Contents of the database: the effects of the migration payloads, the rows
of table `schema_migrations` in insertion order (`none` when the table does
not exist), and whether table `schema_migrations_lock` exists. -/
structure Store where
  schema : List String
  schema_migrations : Option (List String)
  schema_migrations_lock : Bool
  deriving DecidableEq, Repr

/-- The SQL statements of `postgres.go`:
* `createLockTable`: `CREATE TABLE IF NOT EXISTS schema_migrations_lock(lock boolean PRIMARY KEY);`
* `lockTable`: `LOCK TABLE schema_migrations_lock IN ACCESS EXCLUSIVE MODE NOWAIT`
* `createMigrationsTable`: `CREATE TABLE IF NOT EXISTS schema_migrations(identifier varchar(255) NOT NULL PRIMARY KEY, migrated_at timestamp WITH TIME ZONE NOT NULL DEFAULT (NOW() AT TIME ZONE 'UTC'));`
* `selectIdentifiers`: `SELECT identifier FROM schema_migrations ORDER BY identifier`
* `setTimezone`: `SET timezone='UTC';`
* `insertIdentifier id`: `INSERT INTO schema_migrations(identifier) VALUES ($1)` with argument `id`. -/
inductive Stmt where
  | createLockTable
  | lockTable
  | createMigrationsTable
  | selectIdentifiers
  | setTimezone
  | insertIdentifier (id : String)
  deriving DecidableEq, Repr

/-- A call of the driver, as recorded in the log of a `DB`. -/
inductive Call where
  | exec (q : Stmt)
  | query (q : Stmt)
  | beginTx
  | txExec (q : Stmt)
  | commit
  | rollback
  deriving DecidableEq, Repr

/-- The value `*sql.DB` together with the server behind it: the committed
contents, the fate of the coming driver calls, and the calls made so far. -/
structure DB where
  store : Store
  faults : List (Option GoError)
  log : List Call
  deriving DecidableEq, Repr

/-- The value `*sql.Tx`: the contents as the transaction sees them, whether a
statement of the transaction has failed, and whether the transaction has been
committed or rolled back. -/
structure Tx where
  view : Store
  failed : Bool
  closed : Bool
  deriving DecidableEq, Repr

/-- Take the entry of `faults` that belongs to the coming driver call. -/
def DB.next (db : DB) : Option GoError × DB :=
  match db.faults with
  | [] => (none, db)
  | f :: rest => (f, { db with faults := rest })

/-- Record a driver call and take the entry of `faults` that belongs to it. -/
def DB.call (c : Call) (db : DB) : Option GoError × DB :=
  let (f, db1) := db.next
  (f, { db1 with log := db1.log ++ [c] })

/-- What a statement does to the contents it runs on; `Except.error` when the
server refuses it.  An identifier longer than 255 characters is refused unless
the excess consists of spaces, which are cut off; a second row with the same
identifier violates the primary key. -/
def Store.run (q : Stmt) (st : Store) : Except GoError Store :=
  match q with
  | .createLockTable => .ok { st with schema_migrations_lock := true }
  | .lockTable =>
    if st.schema_migrations_lock then .ok st
    else .error (.foreign "pq.Error" "relation schema_migrations_lock does not exist")
  | .createMigrationsTable =>
    match st.schema_migrations with
    | some _ => .ok st
    | none => .ok { st with schema_migrations := some [] }
  | .selectIdentifiers =>
    match st.schema_migrations with
    | some _ => .ok st
    | none => .error (.foreign "pq.Error" "relation schema_migrations does not exist")
  | .setTimezone => .ok st
  | .insertIdentifier id =>
    match st.schema_migrations with
    | none => .error (.foreign "pq.Error" "relation schema_migrations does not exist")
    | some rows =>
      if ((id.data.drop 255).all fun c => c == ' ') then
        let stored := String.mk (id.data.take 255)
        if stored ∈ rows then
          .error (.foreign "pq.Error" "duplicate key value violates unique constraint")
        else .ok { st with schema_migrations := some (rows ++ [stored]) }
      else .error (.foreign "pq.Error" "value too long for type character varying(255)")

/-- The call `db.Exec(q)` outside a transaction: the statement takes effect at
once. -/
def DB.Exec (q : Stmt) (db : DB) : Option GoError × DB :=
  match db.call (.exec q) with
  | (some err, db1) => (some err, db1)
  | (none, db1) =>
    match db1.store.run q with
    | .error err => (some err, db1)
    | .ok st => (none, { db1 with store := st })

/-- The call `db.Begin()`: a transaction that starts from the committed
contents. -/
def DB.Begin (db : DB) : Except GoError Tx × DB :=
  match db.call .beginTx with
  | (some err, db1) => (.error err, db1)
  | (none, db1) => (.ok { view := db1.store, failed := false, closed := false }, db1)

/-- The error `sql.ErrTxDone`, returned by package `database/sql` for any
operation on a transaction that has been committed or rolled back; the driver
is not called. -/
def ErrTxDone : GoError :=
  .errorString "sql: transaction has already been committed or rolled back"

/-- The call `tx.Exec(q)`: fails on a finished transaction and on one in which a
statement has failed before; a failing statement marks the transaction. -/
def Tx.Exec (q : Stmt) (db : DB) (tx : Tx) : Option GoError × DB × Tx :=
  if tx.closed then (some ErrTxDone, db, tx)
  else
    match db.call (.txExec q) with
    | (some err, db1) => (some err, db1, { tx with failed := true })
    | (none, db1) =>
      if tx.failed then
        (some (.foreign "pq.Error" "current transaction is aborted"), db1, tx)
      else
        match tx.view.run q with
        | .error err => (some err, db1, { tx with failed := true })
        | .ok st => (none, db1, { tx with view := st })

/-- The call `tx.Commit()`: the contents seen by the transaction become the committed
contents, unless the transaction is finished, has failed, or the call itself
fails. -/
def Tx.Commit (db : DB) (tx : Tx) : Option GoError × DB × Tx :=
  if tx.closed then (some ErrTxDone, db, tx)
  else
    match db.call .commit with
    | (some err, db1) => (some err, db1, { tx with closed := true })
    | (none, db1) =>
      if tx.failed then
        (some (.foreign "pq.Error" "could not complete operation in a failed transaction"), db1,
          { tx with closed := true })
      else (none, { db1 with store := tx.view }, { tx with closed := true })

/-- The call `tx.Rollback()`: the transaction ends and the committed contents stay as
they are.  On a transaction that is already finished it returns `ErrTxDone`
and makes no call of the driver. -/
def Tx.Rollback (db : DB) (tx : Tx) : Option GoError × DB × Tx :=
  if tx.closed then (some ErrTxDone, db, tx)
  else
    match db.call .rollback with
    | (some err, db1) => (some err, db1, { tx with closed := true })
    | (none, db1) => (none, db1, { tx with closed := true })

/-- The struct `Postgres`; `lock` is `none` for a nil pointer. -/
structure Postgres where
  db : DB
  lock : Option Tx
  deriving DecidableEq, Repr

/-- The method `Postgres.Lock`. -/
def Postgres.Lock (p : Postgres) : Option GoError × Postgres :=
  if p.lock.isSome then (some (.errorString "lock already acquired"), p)
  else
    match p.db.Exec .createLockTable with
    | (some err, db1) => (some err, { p with db := db1 })
    | (none, db1) =>
      match db1.Begin with
      | (.error err, db2) => (some err, { p with db := db2 })
      | (.ok tx, db2) =>
        match tx.Exec .lockTable db2 with
        | (some err, db3, tx3) =>
          let (_, db4, _) := tx3.Rollback db3
          (some err, { p with db := db4 })
        | (none, db3, tx3) => (none, { db := db3, lock := some tx3 })

/-- The method `Postgres.Unlock`. -/
def Postgres.Unlock (p : Postgres) : Option GoError × Postgres :=
  match p.lock with
  | none => (some (.errorString "unable to unlock, lock not acquired"), p)
  | some tx =>
    let (err, db1, _) := tx.Rollback p.db
    (err, { db := db1, lock := none })

/-- Lines 73-81 of `postgres.go`: read the rows of the result one by one.
Every `rows.Next()` and every `rows.Scan(&id)` is a driver call; a failing
`Next` ends the loop and shows as `rows.Err()`, a failing `Scan` returns `nil`
and the error. -/
def readRows : List String → List String → DB → (List String × Option GoError) × DB
  | [], ids, db =>
    match db.next with
    | (some err, db1) => ((ids, some err), db1)
    | (none, db1) => ((ids, none), db1)
  | row :: more, ids, db =>
    match db.next with
    | (some err, db1) => ((ids, some err), db1)
    | (none, db1) =>
      match db1.next with
      | (some err, db2) => (([], some err), db2)
      | (none, db2) => readRows more (ids ++ [row]) db2

/-- The call
`db.Query("SELECT identifier FROM schema_migrations ORDER BY identifier")`:
the rows of the table, ordered by the collation `collate` of the column. -/
def DB.Query (collate : String → String → Bool) (db : DB) : Except GoError (List String) × DB :=
  match db.call (.query .selectIdentifiers) with
  | (some err, db1) => (.error err, db1)
  | (none, db1) =>
    match db1.store.schema_migrations with
    | none => (.error (.foreign "pq.Error" "relation schema_migrations does not exist"), db1)
    | some rows => (.ok (rows.insertionSort fun a b => collate a b = true), db1)

/-- The method `Postgres.Migrations`. -/
def Postgres.Migrations (collate : String → String → Bool) (p : Postgres) :
    (List String × Option GoError) × Postgres :=
  match p.db.Exec .createMigrationsTable with
  | (some err, db1) => (([], some err), { p with db := db1 })
  | (none, db1) =>
    match db1.Query collate with
    | (.error err, db2) => (([], some err), { p with db := db2 })
    | (.ok rows, db2) =>
      let (r, db3) := readRows rows [] db2
      (r, { p with db := db3 })

/-- Lines 92-103 of `postgres.go`: the part of `Apply` that runs inside the
transaction. -/
def Postgres.applyInTx (m : Migration Tx) (db : DB) (tx : Tx) : Option GoError × DB × Tx :=
  match tx.Exec .setTimezone db with
  | (some err, db1, tx1) => (some err, db1, tx1)
  | (none, db1, tx1) =>
    match m.Migrate tx1 with
    | (some err, tx2) => (some err, db1, tx2)
    | (none, tx2) =>
      match tx2.Exec (.insertIdentifier m.ID) db1 with
      | (some err, db2, tx3) => (some err, db2, tx3)
      | (none, db2, tx3) => tx3.Commit db2

/-- The method `Postgres.Apply`; the deferred `tx.Rollback()` runs when the
body has ended. -/
def Postgres.Apply (m : Migration Tx) (p : Postgres) : Option GoError × Postgres :=
  match p.db.Begin with
  | (.error err, db1) => (some err, { p with db := db1 })
  | (.ok tx, db1) =>
    let (r, db2, tx2) := Postgres.applyInTx m db1 tx
    let (_, db3, _) := tx2.Rollback db2
    (r, { p with db := db3 })

/-- The backend `Postgres` as a `Database`. -/
def postgres (collate : String → String → Bool) : Database Postgres Tx where
  Lock := Postgres.Lock
  Unlock := Postgres.Unlock
  Migrations := Postgres.Migrations collate
  Apply := Postgres.Apply

/-- Lexicographic comparison of two lists of characters by code point. -/
def leChars : List Char → List Char → Bool
  | [], _ => true
  | _ :: _, [] => false
  | a :: as, b :: bs =>
    if a.toNat < b.toNat then true
    else if b.toNat < a.toNat then false
    else leChars as bs

/-- The collation that compares strings character by character. -/
def byCodepoint (a b : String) : Bool := leChars a.data b.data

/-- A `Postgres` whose database holds the two tables, both empty, and whose
driver calls all go through. -/
def freshPostgres : Postgres :=
  { db := { store := { schema := [], schema_migrations := some [],
                       schema_migrations_lock := true },
            faults := [], log := [] },
    lock := none }

/-- An identifier of 256 characters, the last one a space. -/
def longIdentifier : String := String.mk (List.replicate 255 'a' ++ [' '])

/-- A migration for `Postgres` whose payload deletes the rows of
`schema_migrations`. -/
def clearingMigration (id : String) : Migration Tx :=
  { ID := id
    Migrate := fun tx =>
      (none, { tx with view := { tx.view with schema_migrations := some [] } }) }

/-- A migration for `Postgres` whose payload records its identifier among the
schema effects. -/
def sqlMigration (id : String) : Migration Tx :=
  { ID := id
    Migrate := fun tx => (none, { tx with view := { tx.view with schema := tx.view.schema ++ [id] } }) }

/-! ## File migrations (`file_migration.go`)

Package `path/filepath`, `sort.Strings` and `strings.HasPrefix` belong to the
Go library.  `Split`, `sortStrings` and `HasPrefix` follow their documented
behaviour for the path separator `/`; the result of `filepath.Glob`, which
depends on the file system, is a parameter of `FileMigrations`. -/

/-- The function `filepath.Split`: scanning from the end of the path up to the
last separator, it returns the part up to and including that separator and
the part after it. -/
def Split (path : String) : String × String :=
  (String.mk (path.data.reverse.dropWhile fun c => c != '/').reverse,
    String.mk (path.data.reverse.takeWhile fun c => c != '/').reverse)

/-- Whether the characters `p` begin the characters `s`. -/
def startsWith : List Char → List Char → Bool
  | [], _ => true
  | _ :: _, [] => false
  | a :: p, b :: s => a == b && startsWith p s

/-- The function `strings.HasPrefix(s, p)`. -/
def HasPrefix (s p : String) : Bool := startsWith p.data s.data

/-- The function `sort.Strings`: increasing order, character by character. -/
def sortStrings (files : List String) : List String :=
  files.insertionSort fun a b => byCodepoint a b = true

/-- The type `FileMigration`, a string that holds the path of a file. -/
structure FileMigration where
  path : String
  deriving DecidableEq, Repr

/-- The method `FileMigration.ID`: the filename without the directory. -/
def FileMigration.ID (f : FileMigration) : String := (Split f.path).2

/-- Lines 38-44 of `file_migration.go`: keep, in order, the files whose name
does not begin with a dot. -/
def visibleFiles : List String → List FileMigration
  | [] => []
  | file :: rest =>
    if HasPrefix (Split file).2 "." then visibleFiles rest
    else FileMigration.mk file :: visibleFiles rest

/-- The function `FileMigrations(dir)`, given the function `filepath.Glob` of
the file system at hand.  The migrations are returned with their dynamic type
`FileMigration`. -/
def FileMigrations (Glob : String → List String × Option GoError) (dir : String) :
    List FileMigration × Option GoError :=
  match Glob (dir ++ "/*.sql") with
  | (_, some err) => ([], some err)
  | (files, none) => (visibleFiles (sortStrings files), none)

/-- A file system in the shape of the one of `TestFileMigrations`: the pattern
`./fixtures/*.sql` matches `file2.sql`, the hidden `.hidden.sql` and
`file1.sql` of directory `fixtures`. -/
def fixturesGlob (pattern : String) : List String × Option GoError :=
  if pattern = "./fixtures/*.sql" then
    (["fixtures/file2.sql", "fixtures/.hidden.sql", "fixtures/file1.sql"], none)
  else ([], none)

/-- A file system whose current directory holds `b.sql`, the hidden `.c.sql`
and `a.sql`: for the pattern `./*.sql`, `filepath.Glob` returns the bare
names, without a directory part. -/
def currentDirGlob (pattern : String) : List String × Option GoError :=
  if pattern = "./*.sql" then (["b.sql", ".c.sql", "a.sql"], none) else ([], none)

/-- A file system with a directory whose name is `v*`, holding `z.sql`, and a
directory `v1`, holding `a.sql`.  `filepath.Glob` reads the star in
`v*/*.sql` as a pattern character, so the pattern matches the files of both
directories. -/
def starDirGlob (pattern : String) : List String × Option GoError :=
  if pattern = "v*/*.sql" then (["v*/z.sql", "v1/a.sql"], none) else ([], none)

/-! ## Counting the actions of a trace -/

/-- The number of calls `db.Lock()` in a trace, failed or not. -/
def lockCalls {ε : Type} : List (Event ε) → Nat
  | [] => 0
  | Event.Lock _ :: tr => lockCalls tr + 1
  | _ :: tr => lockCalls tr

/-- The number of calls `time.Sleep(LockRetryInterval)` in a trace. -/
def sleepCount {ε : Type} : List (Event ε) → Nat
  | [] => 0
  | Event.Sleep d :: tr => (if d = LockRetryInterval then 1 else 0) + sleepCount tr
  | _ :: tr => sleepCount tr

/-- The trace of `n` failed calls of `Lock`, each followed by a sleep. -/
def failedAttempts (ε : Type) : Nat → List (Event ε)
  | 0 => []
  | n + 1 => Event.Lock false :: Event.Sleep LockRetryInterval :: failedAttempts ε n

/-! ## Concrete inputs -/

/-- The empty `TestDatabase` of `TestDo`, `&TestDatabase{}`. -/
def emptyTestDatabase : TestDatabase :=
  { locked := false, unlocked := false, migrations := [], count := 0 }

/-- The migrations of `TestDo`. -/
def testMigrations : List (Migration TestDatabase) :=
  [TestMigration TestDatabase "migration 1", TestMigration TestDatabase "migration 2"]

/-- The finished run of `TestDo`: both migrations applied. -/
def afterTestDo : Run TestDatabase TestDatabase :=
  { result := .returned none
    state := { locked := true, unlocked := true,
               migrations := ["migration 1", "migration 2"], count := 2 }
    trace := [Event.Lock true, Event.Migrations,
      Event.Apply (TestMigration TestDatabase "migration 1"),
      Event.Apply (TestMigration TestDatabase "migration 2"), Event.Unlock] }

/-- Migrations `A`, `B`, `C` for the scripted backend. -/
def migA : Migration Unit := TestMigration Unit "A"

/-- See `migA`. -/
def migB : Migration Unit := TestMigration Unit "B"

/-- See `migA`. -/
def migC : Migration Unit := TestMigration Unit "C"

/-! ## Auxiliary facts -/

section Aux

variable {σ ε : Type}

theorem acquiresAfter_succ {db : Database σ ε} {s : σ} {n : Nat}
    (h : AcquiresAfter db s (n + 1)) :
    (db.Lock s).1 ≠ none ∧ AcquiresAfter db (db.Lock s).2 n := by
  refine ⟨h.1 0 (Nat.succ_pos n), ?_, h.2⟩
  intro j hj
  exact h.1 (j + 1) (Nat.succ_lt_succ hj)

theorem acquire_of_acquiresAfter (db : Database σ ε) :
    ∀ (n fuel : Nat) (s : σ), AcquiresAfter db s n → n < fuel →
      acquire db fuel s = some (lockedState db s n, lockTrace ε n) := by
  intro n
  induction n with
  | zero =>
    intro fuel s h hf
    obtain ⟨f, rfl⟩ : ∃ f, fuel = f + 1 := ⟨fuel - 1, by omega⟩
    have h2 : (db.Lock s).1 = none := h.2
    unfold acquire
    rcases hL : db.Lock s with ⟨e, s1⟩
    rw [hL] at h2
    simp only at h2
    subst h2
    simp [lockedState, lockAttempts, lockTrace, hL]
  | succ n ih =>
    intro fuel s h hf
    obtain ⟨f, rfl⟩ : ∃ f, fuel = f + 1 := ⟨fuel - 1, by omega⟩
    obtain ⟨h1, h2⟩ := acquiresAfter_succ h
    have hrec := ih f (db.Lock s).2 h2 (by omega)
    unfold acquire
    rcases hL : db.Lock s with ⟨e, s1⟩
    rw [hL] at h1 hrec
    cases e with
    | none => exact absurd rfl h1
    | some err =>
      simp only [hrec]
      simp [lockedState, lockAttempts, lockTrace, hL]

theorem acquiresAfter_of_acquire (db : Database σ ε) :
    ∀ (fuel : Nat) (s : σ) (x : σ × List (Event ε)), acquire db fuel s = some x →
      ∃ n, n < fuel ∧ AcquiresAfter db s n := by
  intro fuel
  induction fuel with
  | zero => intro s x h; simp [acquire] at h
  | succ f ih =>
    intro s x h
    unfold acquire at h
    rcases hL : db.Lock s with ⟨e, s1⟩
    rw [hL] at h
    cases e with
    | none =>
      refine ⟨0, Nat.succ_pos f, fun j hj => absurd hj (Nat.not_lt_zero j), ?_⟩
      simp [lockAttempts, hL]
    | some err =>
      simp only at h
      rcases ha : acquire db f s1 with _ | y
      · rw [ha] at h; simp at h
      · obtain ⟨n, hn, h1, h2⟩ := ih s1 y ha
        refine ⟨n + 1, Nat.succ_lt_succ hn, ?_, ?_⟩
        · intro j hj
          cases j with
          | zero => simp [lockAttempts, hL]
          | succ j =>
            simp only [lockAttempts, hL]
            exact h1 j (by omega)
        · simp only [lockAttempts, hL]
          exact h2

theorem Do_of_acquiresAfter (db : Database σ ε) (migrations : List (Migration ε))
    {n fuel : Nat} {s : σ} (h : AcquiresAfter db s n) (hf : n < fuel) :
    Do db migrations fuel s = some
      { result := (migrateLocked db migrations (lockedState db s n)).1
        state := (db.Unlock (migrateLocked db migrations (lockedState db s n)).2.1).2
        trace := lockTrace ε n ++ (migrateLocked db migrations (lockedState db s n)).2.2
          ++ [Event.Unlock] } := by
  unfold Do
  rw [acquire_of_acquiresAfter db n fuel s h hf]

theorem applyCalls_append (a b : List (Event ε)) :
    applyCalls (a ++ b) = applyCalls a ++ applyCalls b := by
  induction a with
  | nil => rfl
  | cons x xs ih => cases x <;> simp [applyCalls, ih]

theorem applyCalls_map_apply (l : List (Migration ε)) :
    applyCalls (l.map Event.Apply) = l := by
  induction l with
  | nil => rfl
  | cons x xs ih => simp [applyCalls, ih]

theorem applyCalls_lockTrace (n : Nat) : applyCalls (lockTrace ε n) = [] := by
  induction n with
  | zero => rfl
  | succ n ih => simp [lockTrace, applyCalls, ih]

theorem applyCalls_run (n : Nat) (l : List (Migration ε)) :
    applyCalls (lockTrace ε n ++ (Event.Migrations :: l.map Event.Apply) ++ [Event.Unlock])
      = l := by
  simp [applyCalls_append, applyCalls_lockTrace, applyCalls, applyCalls_map_apply]

theorem compareApplied_matching (migrations : List (Migration ε)) :
    ∀ (applied : List String) (o : Nat),
      applied = ((migrations.drop o).take applied.length).map Migration.ID →
      compareApplied migrations o applied = none := by
  intro applied
  induction applied with
  | nil => intro o _; rfl
  | cons x rest ih =>
    intro o h
    rcases hd : migrations.drop o with _ | ⟨mig, tail⟩
    · rw [hd] at h; simp at h
    · rw [hd] at h
      simp only [List.length_cons, List.take_succ_cons, List.map_cons, List.cons.injEq] at h
      have hget : migrations[o]? = some mig := by
        have := congrArg List.head? hd
        simpa [List.head?_drop] using this
      have htail : migrations.drop (o + 1) = tail := by
        have := congrArg List.tail hd
        simpa [List.tail_drop] using this
      unfold compareApplied
      simp only [hget]
      rw [if_neg (by simp [h.1])]
      apply ih
      rw [htail]
      exact h.2

theorem compareApplied_first_mismatch (migrations : List (Migration ε)) :
    ∀ (applied : List String) (o i : Nat) (a : String) (mig : Migration ε),
      applied[i]? = some a → migrations[o + i]? = some mig → a ≠ mig.ID →
      (∀ j, j < i → applied[j]? = (migrations[o + j]?).map Migration.ID) →
      compareApplied migrations o applied = some (.returned (some (unknownError a mig.ID))) := by
  intro applied
  induction applied with
  | nil => intro o i a mig h; simp at h
  | cons x rest ih =>
    intro o i a mig ha hm hne hfirst
    cases i with
    | zero =>
      simp only [List.getElem?_cons_zero, Option.some.injEq] at ha
      subst ha
      simp only [Nat.add_zero] at hm
      unfold compareApplied
      simp only [hm]
      rw [if_pos (by simpa using hne)]
    | succ i =>
      have h0 := hfirst 0 (Nat.succ_pos i)
      simp only [List.getElem?_cons_zero, Nat.add_zero] at h0
      rcases hg : migrations[o]? with _ | m0
      · rw [hg] at h0; simp at h0
      · rw [hg] at h0
        simp only [Option.map_some', Option.some.injEq] at h0
        unfold compareApplied
        simp only [hg]
        rw [if_neg (by simp [h0])]
        apply ih (o + 1) i a mig
        · simpa using ha
        · rw [← hm]; congr 1; omega
        · exact hne
        · intro j hj
          have := hfirst (j + 1) (Nat.succ_lt_succ hj)
          simp only [List.getElem?_cons_succ] at this
          rw [this]; congr 2; omega

theorem compareApplied_cases (migrations : List (Migration ε)) :
    ∀ (applied : List String) (o : Nat), o + applied.length ≤ migrations.length →
      compareApplied migrations o applied = none ∨
      ∃ i a mig, applied[i]? = some a ∧ migrations[o + i]? = some mig ∧ a ≠ mig.ID ∧
        (∀ j, j < i → applied[j]? = (migrations[o + j]?).map Migration.ID) ∧
        compareApplied migrations o applied =
          some (.returned (some (unknownError a mig.ID))) := by
  intro applied
  induction applied with
  | nil => intro o _; left; rfl
  | cons x rest ih =>
    intro o hlen
    simp only [List.length_cons] at hlen
    have hlt : o < migrations.length := by omega
    have hg : migrations[o]? = some migrations[o] := List.getElem?_eq_getElem hlt
    by_cases hx : x = migrations[o].ID
    · rcases ih (o + 1) (by omega) with h | ⟨i, a, mig, ha, hm, hne, hfirst, hres⟩
      · left
        unfold compareApplied
        simp only [hg]
        rw [if_neg (by simp [hx])]
        exact h
      · right
        refine ⟨i + 1, a, mig, by simpa using ha, ?_, hne, ?_, ?_⟩
        · rw [← hm]; congr 1; omega
        · intro j hj
          cases j with
          | zero => simp [hg, hx]
          | succ j =>
            have := hfirst j (by omega)
            simp only [List.getElem?_cons_succ]
            rw [this]; congr 2; omega
        · unfold compareApplied
          simp only [hg]
          rw [if_neg (by simp [hx])]
          exact hres
    · right
      refine ⟨0, x, migrations[o], by simp, by simp, hx, ?_, ?_⟩
      · intro j hj; omega
      · unfold compareApplied
        simp only [hg]
        rw [if_pos (by simpa using hx)]

theorem compareApplied_none_matches (migrations : List (Migration ε)) :
    ∀ (applied : List String) (o : Nat), compareApplied migrations o applied = none →
      ∀ (i : Nat) (a : String) (mig : Migration ε),
        applied[i]? = some a → migrations[o + i]? = some mig → a = mig.ID := by
  intro applied
  induction applied with
  | nil => intro o _ i a mig ha; simp at ha
  | cons x rest ih =>
    intro o h i a mig ha hm
    unfold compareApplied at h
    rcases hg : migrations[o]? with _ | m0
    · rw [hg] at h; simp at h
    · rw [hg] at h
      simp only at h
      by_cases hx : x = m0.ID
      · rw [if_neg (by simp [hx])] at h
        cases i with
        | zero =>
          simp only [List.getElem?_cons_zero, Option.some.injEq] at ha
          simp only [Nat.add_zero] at hm
          rw [hg] at hm
          cases hm
          rw [← ha]; exact hx
        | succ i =>
          refine ih (o + 1) h i a mig (by simpa using ha) ?_
          rw [← hm]; congr 1; omega
      · rw [if_pos (by simpa using hx)] at h
        cases h

theorem applyPending_of_succeed (db : Database σ ε) :
    ∀ (l : List (Migration ε)) (s : σ), AppliesSucceed db l s →
      applyPending db l s = (none, afterApplies db l s, l.map Event.Apply) := by
  intro l
  induction l with
  | nil => intro s _; rfl
  | cons m rest ih =>
    intro s h
    obtain ⟨h1, h2⟩ := h
    have hrec := ih _ h2
    unfold applyPending
    rcases hA : db.Apply m s with ⟨e, s1⟩
    rw [hA] at h1 hrec
    simp only at h1
    subst h1
    simp [hrec, afterApplies, hA]

theorem applyPending_of_failure (db : Database σ ε) (m : Migration ε) (post : List (Migration ε))
    (e : GoError) :
    ∀ (pre : List (Migration ε)) (s : σ), AppliesSucceed db pre s →
      (db.Apply m (afterApplies db pre s)).1 = some e →
      applyPending db (pre ++ m :: post) s =
        (some (.Error m.ID e), (db.Apply m (afterApplies db pre s)).2,
          (pre ++ [m]).map Event.Apply) := by
  intro pre
  induction pre with
  | nil =>
    intro s _ hf
    simp only [afterApplies] at hf
    simp only [List.nil_append, afterApplies]
    unfold applyPending
    rcases hA : db.Apply m s with ⟨e1, s1⟩
    rw [hA] at hf
    simp only at hf
    subst hf
    simp
  | cons x rest ih =>
    intro s h hf
    obtain ⟨h1, h2⟩ := h
    simp only [afterApplies] at hf
    have hrec := ih _ h2 hf
    simp only [List.cons_append, afterApplies]
    unfold applyPending
    rcases hA : db.Apply x s with ⟨e1, s1⟩
    rw [hA] at h1 hrec
    simp only at h1
    subst h1
    simp [hrec, hA]

theorem appliesSucceed_of_always (db : Database σ ε) (h : ∀ m t, (db.Apply m t).1 = none) :
    ∀ (l : List (Migration ε)) (s : σ), AppliesSucceed db l s := by
  intro l
  induction l with
  | nil => intro s; trivial
  | cons m rest ih => intro s; exact ⟨h m s, ih _⟩

theorem length_le_of_matching {migrations : List (Migration ε)} {applied : List String}
    (h : applied = (migrations.take applied.length).map Migration.ID) :
    applied.length ≤ migrations.length := by
  have := congrArg List.length h
  simp only [List.length_map, List.length_take] at this
  omega

theorem migrateLocked_listing_failed (db : Database σ ε) (migrations : List (Migration ε))
    {s : σ} {e : GoError} (h : (db.Migrations s).1.2 = some e) :
    migrateLocked db migrations s =
      (.returned (some e), (db.Migrations s).2, [Event.Migrations]) := by
  unfold migrateLocked
  rcases hM : db.Migrations s with ⟨⟨a, err⟩, s1⟩
  rw [hM] at h
  simp only at h
  subst h
  rfl

theorem migrateLocked_too_many (db : Database σ ε) (migrations : List (Migration ε))
    {s : σ} {applied : List String} (h : (db.Migrations s).1 = (applied, none))
    (hlen : applied.length > migrations.length) :
    migrateLocked db migrations s =
      (.returned (some (tooManyError applied.length migrations.length)), (db.Migrations s).2,
        [Event.Migrations]) := by
  unfold migrateLocked
  rcases hM : db.Migrations s with ⟨⟨a, err⟩, s1⟩
  rw [hM] at h
  simp only [Prod.mk.injEq] at h
  obtain ⟨rfl, rfl⟩ := h
  simp [hlen]

theorem migrateLocked_compare_failed (db : Database σ ε) (migrations : List (Migration ε))
    {s : σ} {applied : List String} {out : Outcome} (h : (db.Migrations s).1 = (applied, none))
    (hlen : applied.length ≤ migrations.length)
    (hc : compareApplied migrations 0 applied = some out) :
    migrateLocked db migrations s = (out, (db.Migrations s).2, [Event.Migrations]) := by
  unfold migrateLocked
  rcases hM : db.Migrations s with ⟨⟨a, err⟩, s1⟩
  rw [hM] at h
  simp only [Prod.mk.injEq] at h
  obtain ⟨rfl, rfl⟩ := h
  simp [Nat.not_lt.mpr hlen, hc]

theorem migrateLocked_compare_passed (db : Database σ ε) (migrations : List (Migration ε))
    {s : σ} {applied : List String} (h : (db.Migrations s).1 = (applied, none))
    (hlen : applied.length ≤ migrations.length)
    (hc : compareApplied migrations 0 applied = none) :
    migrateLocked db migrations s =
      (.returned (applyPending db (migrations.drop applied.length) (db.Migrations s).2).1,
        (applyPending db (migrations.drop applied.length) (db.Migrations s).2).2.1,
        Event.Migrations ::
          (applyPending db (migrations.drop applied.length) (db.Migrations s).2).2.2) := by
  unfold migrateLocked
  rcases hM : db.Migrations s with ⟨⟨a, err⟩, s1⟩
  rw [hM] at h
  simp only [Prod.mk.injEq] at h
  obtain ⟨rfl, rfl⟩ := h
  simp only [gt_iff_lt, Nat.not_lt.mpr hlen, ↓reduceIte, hc, beq_iff_eq]
  by_cases heq : a.length = migrations.length
  · have hd : migrations.drop a.length = [] := by
      rw [heq]; exact List.drop_length migrations
    simp [heq, hd, applyPending]
  · simp [heq]

theorem migrateLocked_matching (db : Database σ ε) (migrations : List (Migration ε))
    {s : σ} {applied : List String} (h : (db.Migrations s).1 = (applied, none))
    (hpre : applied = (migrations.take applied.length).map Migration.ID)
    (hok : AppliesSucceed db (migrations.drop applied.length) (db.Migrations s).2) :
    migrateLocked db migrations s =
      (.returned none, afterApplies db (migrations.drop applied.length) (db.Migrations s).2,
        Event.Migrations :: (migrations.drop applied.length).map Event.Apply) := by
  rw [migrateLocked_compare_passed db migrations h (length_le_of_matching hpre)
    (compareApplied_matching migrations applied 0 (by simpa using hpre)),
    applyPending_of_succeed db _ _ hok]

theorem migrateLocked_apply_failed (db : Database σ ε) (migrations : List (Migration ε))
    {s : σ} {applied : List String} {pre post : List (Migration ε)} {m : Migration ε}
    {e : GoError} (h : (db.Migrations s).1 = (applied, none))
    (hpre : applied = (migrations.take applied.length).map Migration.ID)
    (hsplit : migrations.drop applied.length = pre ++ m :: post)
    (hok : AppliesSucceed db pre (db.Migrations s).2)
    (hfail : (db.Apply m (afterApplies db pre (db.Migrations s).2)).1 = some e) :
    migrateLocked db migrations s =
      (.returned (some (.Error m.ID e)),
        (db.Apply m (afterApplies db pre (db.Migrations s).2)).2,
        Event.Migrations :: (pre ++ [m]).map Event.Apply) := by
  rw [migrateLocked_compare_passed db migrations h (length_le_of_matching hpre)
    (compareApplied_matching migrations applied 0 (by simpa using hpre)),
    hsplit, applyPending_of_failure db m post e pre _ hok hfail]

theorem hist_lockAttempts (db : Database σ ε) (hist : σ → List String)
    (hL : ∀ t, hist (db.Lock t).2 = hist t) :
    ∀ (n : Nat) (s : σ), hist (lockAttempts db n s) = hist s := by
  intro n
  induction n with
  | zero => intro s; rfl
  | succ n ih => intro s; simp only [lockAttempts]; rw [ih, hL]

theorem hist_afterApplies (db : Database σ ε) (hist : σ → List String)
    (hA : ∀ m t, (db.Apply m t).1 = none → hist (db.Apply m t).2 = hist t ++ [m.ID]) :
    ∀ (l : List (Migration ε)) (s : σ), AppliesSucceed db l s →
      hist (afterApplies db l s) = hist s ++ l.map Migration.ID := by
  intro l
  induction l with
  | nil => intro s _; simp [afterApplies]
  | cons m rest ih =>
    intro s h
    simp only [afterApplies]
    rw [ih _ h.2, hA m s h.1]
    simp

theorem applyPending_trace (db : Database σ ε) :
    ∀ (l : List (Migration ε)) (s : σ),
      ∃ done : List (Migration ε), (applyPending db l s).2.2 = done.map Event.Apply := by
  intro l
  induction l with
  | nil => intro s; exact ⟨[], rfl⟩
  | cons m rest ih =>
    intro s
    unfold applyPending
    rcases hA : db.Apply m s with ⟨e, s1⟩
    cases e with
    | some err => exact ⟨[m], rfl⟩
    | none =>
      obtain ⟨done, hd⟩ := ih s1
      exact ⟨m :: done, by simp [hd]⟩

theorem applyPending_result (db : Database σ ε) :
    ∀ (l : List (Migration ε)) (s : σ),
      (applyPending db l s).1 = none ∨
      ∃ m t cause, m ∈ l ∧ (db.Apply m t).1 = some cause ∧
        (applyPending db l s).1 = some (.Error m.ID cause) := by
  intro l
  induction l with
  | nil => intro s; left; rfl
  | cons m rest ih =>
    intro s
    unfold applyPending
    rcases hA : db.Apply m s with ⟨e, s1⟩
    cases e with
    | some err =>
      right
      exact ⟨m, s, err, List.mem_cons_self _ _, by rw [hA], rfl⟩
    | none =>
      rcases ih s1 with h | ⟨x, t, cause, hx, hc, hr⟩
      · left; simpa using h
      · right
        exact ⟨x, t, cause, List.mem_cons_of_mem _ hx, hc, by simpa using hr⟩

theorem migrateLocked_trace (db : Database σ ε) (migrations : List (Migration ε)) (s : σ) :
    ∃ done : List (Migration ε),
      (migrateLocked db migrations s).2.2 = Event.Migrations :: done.map Event.Apply := by
  unfold migrateLocked
  rcases hM : db.Migrations s with ⟨⟨a, err⟩, s1⟩
  cases err with
  | some e => exact ⟨[], rfl⟩
  | none =>
    simp only
    split
    · exact ⟨[], rfl⟩
    · split
      · exact ⟨[], rfl⟩
      · split
        · exact ⟨[], rfl⟩
        · obtain ⟨done, hd⟩ := applyPending_trace db (migrations.drop a.length) s1
          exact ⟨done, by simp [hd]⟩

theorem unlockCount_append (a b : List (Event ε)) :
    unlockCount (a ++ b) = unlockCount a + unlockCount b := by
  induction a with
  | nil => simp [unlockCount]
  | cons x xs ih =>
    cases x <;> simp [unlockCount, ih]
    omega

theorem lockedCount_append (a b : List (Event ε)) :
    lockedCount (a ++ b) = lockedCount a + lockedCount b := by
  induction a with
  | nil => simp [lockedCount]
  | cons x xs ih =>
    cases x with
    | Lock ok =>
      cases ok <;> simp [lockedCount, ih]
      omega
    | _ => simp [lockedCount, ih]

theorem counts_lockTrace (n : Nat) :
    unlockCount (lockTrace ε n) = 0 ∧ lockedCount (lockTrace ε n) = 1 := by
  induction n with
  | zero => exact ⟨rfl, rfl⟩
  | succ n ih => simpa [lockTrace, unlockCount, lockedCount] using ih

theorem counts_map_apply (l : List (Migration ε)) :
    unlockCount (l.map Event.Apply) = 0 ∧ lockedCount (l.map Event.Apply) = 0 := by
  induction l with
  | nil => exact ⟨rfl, rfl⟩
  | cons x xs ih => simpa [unlockCount, lockedCount] using ih

theorem acquire_unlock_irrelevant (db : Database σ ε) (u : σ → Option GoError × σ) :
    ∀ (fuel : Nat) (s : σ), acquire { db with Unlock := u } fuel s = acquire db fuel s := by
  intro fuel
  induction fuel with
  | zero => intro s; rfl
  | succ f ih =>
    intro s
    unfold acquire
    simp only [ih]

theorem applyPending_unlock_irrelevant (db : Database σ ε) (u : σ → Option GoError × σ) :
    ∀ (l : List (Migration ε)) (s : σ),
      applyPending { db with Unlock := u } l s = applyPending db l s := by
  intro l
  induction l with
  | nil => intro s; rfl
  | cons m rest ih =>
    intro s
    unfold applyPending
    simp only [ih]

theorem migrateLocked_unlock_irrelevant (db : Database σ ε) (u : σ → Option GoError × σ)
    (migrations : List (Migration ε)) (s : σ) :
    migrateLocked { db with Unlock := u } migrations s = migrateLocked db migrations s := by
  unfold migrateLocked
  simp only [applyPending_unlock_irrelevant]

theorem acquiresAfter_of_run (db : Database σ ε) (migrations : List (Migration ε))
    {fuel : Nat} {s : σ} {r : Run σ ε} (h : Do db migrations fuel s = some r) :
    ∃ n, n < fuel ∧ AcquiresAfter db s n := by
  unfold Do at h
  rcases ha : acquire db fuel s with _ | x
  · rw [ha] at h; simp at h
  · exact acquiresAfter_of_acquire db fuel s x ha

/-- The runs of `Do` that end are exactly those in which, within the fuel, some
call of `Lock` succeeds. -/
theorem Do_terminates_iff (db : Database σ ε) (migrations : List (Migration ε))
    (fuel : Nat) (s : σ) :
    (∃ r, Do db migrations fuel s = some r) ↔ ∃ n, n < fuel ∧ AcquiresAfter db s n := by
  constructor
  · rintro ⟨r, hr⟩
    unfold Do at hr
    rcases ha : acquire db fuel s with _ | x
    · rw [ha] at hr; simp at hr
    · exact acquiresAfter_of_acquire db fuel s x ha
  · rintro ⟨n, hn, h⟩
    exact ⟨_, Do_of_acquiresAfter db migrations h hn⟩

end Aux

/-! ### Facts about the PostgreSQL model -/

theorem DB.next_store (db : DB) : db.next.2.store = db.store := by
  unfold DB.next
  split <;> rfl

theorem DB.call_store (c : Call) (db : DB) : (db.call c).2.store = db.store := by
  unfold DB.call
  exact DB.next_store db

theorem Tx.Exec_ok {q : Stmt} {db : DB} {tx : Tx}
    (h : (tx.Exec q db).1 = none) :
    tx.view.run q = .ok (tx.Exec q db).2.2.view ∧ (tx.Exec q db).2.1.store = db.store := by
  unfold Tx.Exec at h ⊢
  by_cases h1 : tx.closed = true
  · simp [h1] at h
  · simp only [h1, Bool.false_eq_true, ↓reduceIte] at h ⊢
    have hs := DB.call_store (.txExec q) db
    rcases hc : db.call (.txExec q) with ⟨f, db1⟩
    rw [hc] at hs h
    cases f with
    | some err => simp at h
    | none =>
      simp only at h hs ⊢
      by_cases h2 : tx.failed = true
      · simp [h2] at h
      · simp only [h2, Bool.false_eq_true, ↓reduceIte] at h ⊢
        rcases hr : tx.view.run q with err | st
        · simp [hr] at h
        · exact ⟨rfl, hs⟩

theorem Tx.Commit_ok {db : DB} {tx : Tx} (h : (tx.Commit db).1 = none) :
    (tx.Commit db).2.1.store = tx.view := by
  unfold Tx.Commit at h ⊢
  by_cases h1 : tx.closed = true
  · simp [h1] at h
  · simp only [h1, Bool.false_eq_true, ↓reduceIte] at h ⊢
    rcases hc : db.call .commit with ⟨f, db1⟩
    rw [hc] at h
    cases f with
    | some err => simp at h
    | none =>
      simp only at h ⊢
      by_cases h2 : tx.failed = true
      · simp [h2] at h
      · simp [h2]

theorem Tx.Rollback_store (db : DB) (tx : Tx) : (tx.Rollback db).2.1.store = db.store := by
  unfold Tx.Rollback
  by_cases h1 : tx.closed = true
  · simp [h1]
  · simp only [h1, Bool.false_eq_true, ↓reduceIte]
    have hs := DB.call_store .rollback db
    rcases hc : db.call .rollback with ⟨f, db1⟩
    rw [hc] at hs
    cases f with
    | some err => exact hs
    | none => exact hs

theorem take_of_short {id : String} (h : id.length ≤ 255) :
    String.mk (id.data.take 255) = id := by
  have hlen : id.data.length ≤ 255 := h
  rw [List.take_of_length_le hlen]

theorem Store.run_insert_ok {id : String} {st st1 : Store} (hid : id.length ≤ 255)
    (h : st.run (.insertIdentifier id) = .ok st1) :
    ∃ rows, st.schema_migrations = some rows ∧ st1.schema_migrations = some (rows ++ [id]) := by
  unfold Store.run at h
  rcases hr : st.schema_migrations with _ | rows
  · simp [hr] at h
  · refine ⟨rows, rfl, ?_⟩
    simp only [hr, take_of_short hid] at h
    split at h
    · split at h
      · cases h
      · cases h; rfl
    · cases h


theorem Postgres.applyInTx_ok {m : Migration Tx} {db : DB} {tx : Tx}
    (hpay : ∀ t, (m.Migrate t).2.view.schema_migrations = t.view.schema_migrations)
    (hid : m.ID.length ≤ 255) (h : (Postgres.applyInTx m db tx).1 = none) :
    ∃ rows, tx.view.schema_migrations = some rows ∧
      (Postgres.applyInTx m db tx).2.1.store.schema_migrations = some (rows ++ [m.ID]) := by
  unfold Postgres.applyInTx at h ⊢
  rcases h1 : tx.Exec .setTimezone db with ⟨e1, db1, tx1⟩
  rw [h1] at h
  cases e1 with
  | some err => simp at h
  | none =>
    have k1 := @Tx.Exec_ok .setTimezone db tx (by rw [h1])
    rw [h1] at k1
    simp only [Store.run, Except.ok.injEq] at k1
    simp only at h ⊢
    have hp := hpay tx1
    rcases h2 : m.Migrate tx1 with ⟨e2, tx2⟩
    rw [h2] at h hp
    cases e2 with
    | some err => simp at h
    | none =>
      simp only at h hp ⊢
      rcases h3 : tx2.Exec (.insertIdentifier m.ID) db1 with ⟨e3, db2, tx3⟩
      rw [h3] at h
      cases e3 with
      | some err => simp at h
      | none =>
        have k3 := @Tx.Exec_ok (.insertIdentifier m.ID) db1 tx2 (by rw [h3])
        rw [h3] at k3
        simp only at h k3 ⊢
        obtain ⟨rows, hr, hr1⟩ := Store.run_insert_ok hid k3.1
        refine ⟨rows, ?_, ?_⟩
        · rw [k1.1, ← hp, hr]
        · rw [Tx.Commit_ok h, hr1]

theorem Postgres.Apply_ok {m : Migration Tx} {p : Postgres}
    (hpay : ∀ t, (m.Migrate t).2.view.schema_migrations = t.view.schema_migrations)
    (hid : m.ID.length ≤ 255) (h : (Postgres.Apply m p).1 = none) :
    ∃ rows, p.db.store.schema_migrations = some rows ∧
      (Postgres.Apply m p).2.db.store.schema_migrations = some (rows ++ [m.ID]) := by
  unfold Postgres.Apply at h ⊢
  unfold DB.Begin at h ⊢
  have hs := DB.call_store .beginTx p.db
  rcases hc : p.db.call .beginTx with ⟨f, db1⟩
  rw [hc] at h hs
  cases f with
  | some err => simp at h
  | none =>
    simp only at h hs ⊢
    obtain ⟨rows, hr, hr1⟩ := @Postgres.applyInTx_ok m db1
      { view := db1.store, failed := false, closed := false } hpay hid h
    refine ⟨rows, by rw [← hs]; exact hr, ?_⟩
    rw [Tx.Rollback_store]
    exact hr1

theorem Postgres.afterApplies_rows (collate : String → String → Bool) :
    ∀ (ms : List (Migration Tx)) (p : Postgres) (rows : List String),
      (∀ m ∈ ms, ∀ t, (m.Migrate t).2.view.schema_migrations = t.view.schema_migrations) →
      (∀ m ∈ ms, m.ID.length ≤ 255) →
      p.db.store.schema_migrations = some rows →
      AppliesSucceed (postgres collate) ms p →
      (afterApplies (postgres collate) ms p).db.store.schema_migrations
        = some (rows ++ ms.map Migration.ID) := by
  intro ms
  induction ms with
  | nil => intro p rows _ _ h _; simpa [afterApplies] using h
  | cons m rest ih =>
    intro p rows hpay hid h hok
    obtain ⟨hok1, hok2⟩ := hok
    obtain ⟨rows1, hr, hr1⟩ := @Postgres.Apply_ok m p
      (hpay m (List.mem_cons_self _ _)) (hid m (List.mem_cons_self _ _)) hok1
    rw [h] at hr
    cases hr
    simp only [afterApplies]
    have hrec := ih ((postgres collate).Apply m p).2 (rows ++ [m.ID])
      (fun x hx => hpay x (List.mem_cons_of_mem _ hx))
      (fun x hx => hid x (List.mem_cons_of_mem _ hx)) hr1 hok2
    rw [hrec]
    simp

theorem readRows_ok : ∀ (rows acc : List String) (db : DB) (ids : List String),
    (readRows rows acc db).1 = (ids, none) → ids = acc ++ rows := by
  intro rows
  induction rows with
  | nil =>
    intro acc db ids h
    unfold readRows at h
    rcases hn : db.next with ⟨f, db1⟩
    rw [hn] at h
    cases f with
    | some err => simp at h
    | none => simp only [Prod.mk.injEq, and_true] at h; simp [h]
  | cons row more ih =>
    intro acc db ids h
    unfold readRows at h
    rcases hn : db.next with ⟨f, db1⟩
    rw [hn] at h
    cases f with
    | some err => simp at h
    | none =>
      simp only at h
      rcases hn2 : db1.next with ⟨f2, db2⟩
      rw [hn2] at h
      cases f2 with
      | some err => simp at h
      | none =>
        simp only at h
        rw [ih _ _ _ h]
        simp

theorem Postgres.Migrations_ok {collate : String → String → Bool} {p : Postgres}
    {rows ids : List String} (hrows : p.db.store.schema_migrations = some rows)
    (h : (Postgres.Migrations collate p).1 = (ids, none)) :
    ids = rows.insertionSort fun a b => collate a b = true := by
  unfold Postgres.Migrations at h
  unfold DB.Exec at h
  have hs := DB.call_store (.exec .createMigrationsTable) p.db
  rcases hc : p.db.call (.exec .createMigrationsTable) with ⟨f, db1⟩
  rw [hc] at h hs
  cases f with
  | some err => simp at h
  | none =>
    simp only at h hs
    have hrun : db1.store.run .createMigrationsTable = .ok db1.store := by
      simp [Store.run, hs, hrows]
    rw [hrun] at h
    simp only at h
    unfold DB.Query at h
    have hs2 := DB.call_store (.query .selectIdentifiers) { db1 with store := db1.store }
    rcases hc2 : DB.call (.query .selectIdentifiers) { db1 with store := db1.store }
      with ⟨f2, db2⟩
    rw [hc2] at h hs2
    cases f2 with
    | some err => simp at h
    | none =>
      simp only at h hs2
      rw [hs2, hs, hrows] at h
      simp only at h
      have := readRows_ok _ _ _ _ h
      simpa using this

theorem leChars_total : ∀ a b : List Char, leChars a b = true ∨ leChars b a = true := by
  intro a
  induction a with
  | nil => intro b; left; rfl
  | cons x xs ih =>
    intro b
    cases b with
    | nil => right; rfl
    | cons y ys =>
      unfold leChars
      by_cases h1 : x.toNat < y.toNat
      · left; simp [h1]
      · by_cases h2 : y.toNat < x.toNat
        · right; simp [h2]
        · simpa [h1, h2] using ih ys

theorem leChars_trans : ∀ a b c : List Char,
    leChars a b = true → leChars b c = true → leChars a c = true := by
  intro a
  induction a with
  | nil => intro b c _ _; rfl
  | cons x xs ih =>
    intro b c hab hbc
    cases b with
    | nil => simp [leChars] at hab
    | cons y ys =>
      cases c with
      | nil => simp [leChars] at hbc
      | cons z zs =>
        unfold leChars at hab hbc ⊢
        by_cases h1 : x.toNat < y.toNat
        · by_cases h3 : y.toNat < z.toNat
          · rw [if_pos (by omega)]
          · by_cases h4 : z.toNat < y.toNat
            · simp [h3, h4] at hbc
            · rw [if_pos (by omega)]
        · by_cases h2 : y.toNat < x.toNat
          · simp [h1, h2] at hab
          · simp only [h1, h2, if_false] at hab
            by_cases h3 : y.toNat < z.toNat
            · rw [if_pos (by omega)]
            · by_cases h4 : z.toNat < y.toNat
              · simp [h3, h4] at hbc
              · simp only [h3, h4, if_false] at hbc
                rw [if_neg (by omega), if_neg (by omega)]
                exact ih ys zs hab hbc

theorem byCodepoint_total (a b : String) : byCodepoint a b = true ∨ byCodepoint b a = true :=
  leChars_total a.data b.data

theorem byCodepoint_trans (a b c : String) :
    byCodepoint a b = true → byCodepoint b c = true → byCodepoint a c = true :=
  leChars_trans a.data b.data c.data

/-! ## Reconciliation and application -/

/-- C1. When some call of `Lock` succeeds, `Migrations` returns (without error)
a list `applied` equal, position by position, to the identifiers of the first
`len(applied)` migrations, and `Apply` always succeeds, then `Do` returns `nil`
and its calls of `Apply` are exactly `migrations[len(applied):]`, each once and
in order; with an empty history their number is `len(migrations)`. -/
theorem Do_applies_pending_in_order {σ ε : Type} (db : Database σ ε)
    (migrations : List (Migration ε)) (s : σ) (n fuel : Nat) (applied : List String)
    (hlock : AcquiresAfter db s n) (hfuel : n < fuel)
    (hmig : (db.Migrations (lockedState db s n)).1 = (applied, none))
    (hpre : applied = (migrations.take applied.length).map Migration.ID)
    (happly : ∀ m t, (db.Apply m t).1 = none) :
    ∃ r, Do db migrations fuel s = some r ∧ r.result = .returned none ∧
      applyCalls r.trace = migrations.drop applied.length ∧
      (applied = [] → (applyCalls r.trace).length = migrations.length) := by
  have hcalls := applyCalls_run n (migrations.drop applied.length)
  refine ⟨_, Do_of_acquiresAfter db migrations hlock hfuel, ?_, ?_, ?_⟩
  · rw [migrateLocked_matching db migrations hmig hpre
      (appliesSucceed_of_always db happly _ _)]
  · simp only
    rw [migrateLocked_matching db migrations hmig hpre
      (appliesSucceed_of_always db happly _ _)]
    exact hcalls
  · intro hnil
    simp only
    rw [migrateLocked_matching db migrations hmig hpre
      (appliesSucceed_of_always db happly _ _), hcalls, hnil]
    rfl

/-- The run of `TestDo`: two migrations on an empty `TestDatabase`. -/
theorem Do_applies_pending_in_order_witness :
    ∃ r, Do testDatabase testMigrations 1 emptyTestDatabase = some r ∧
      r.result = .returned none ∧
      applyCalls r.trace = testMigrations.drop ([] : List String).length ∧
      (([] : List String) = [] → (applyCalls r.trace).length = testMigrations.length) :=
  Do_applies_pending_in_order testDatabase testMigrations emptyTestDatabase 0 1 []
    ⟨fun _ hj => absurd hj (Nat.not_lt_zero _), rfl⟩ (by decide) rfl rfl (fun _ _ => rfl)

/-- C2. When the migrations before the k-th pending one (`pre`) are applied
successfully and `Apply` fails with cause `e` on the k-th (`m`), `Do` returns
`Error{m.ID(), e}`, its calls of `Apply` are exactly the pending migrations
1..k in order, so none after the k-th; and for a backend whose history `hist`
changes only by a successful `Apply` appending the identifier, the final
history is the initial one followed by the identifiers of `pre`. -/
theorem Do_stops_at_failed_apply {σ ε : Type} (db : Database σ ε)
    (migrations : List (Migration ε)) (s : σ) (n fuel : Nat) (applied : List String)
    (pre post : List (Migration ε)) (m : Migration ε) (e : GoError) (hist : σ → List String)
    (hlock : AcquiresAfter db s n) (hfuel : n < fuel)
    (hmig : (db.Migrations (lockedState db s n)).1 = (applied, none))
    (hpre : applied = (migrations.take applied.length).map Migration.ID)
    (hsplit : migrations.drop applied.length = pre ++ m :: post)
    (hok : AppliesSucceed db pre (db.Migrations (lockedState db s n)).2)
    (hfail : (db.Apply m (afterApplies db pre (db.Migrations (lockedState db s n)).2)).1
      = some e) :
    ∃ r, Do db migrations fuel s = some r ∧
      r.result = .returned (some (.Error m.ID e)) ∧
      applyCalls r.trace = pre ++ [m] ∧
      ((∀ t, hist (db.Lock t).2 = hist t) → (∀ t, hist (db.Unlock t).2 = hist t) →
        (∀ t, hist (db.Migrations t).2 = hist t) →
        (∀ x t, (db.Apply x t).1 = none → hist (db.Apply x t).2 = hist t ++ [x.ID]) →
        (∀ x t, (db.Apply x t).1 ≠ none → hist (db.Apply x t).2 = hist t) →
        hist r.state = hist s ++ pre.map Migration.ID) := by
  have hML := migrateLocked_apply_failed db migrations hmig hpre hsplit hok hfail
  refine ⟨_, Do_of_acquiresAfter db migrations hlock hfuel, ?_, ?_, ?_⟩
  · rw [hML]
  · simp only
    rw [hML]
    exact applyCalls_run n (pre ++ [m])
  · intro hL hU hM hA hF
    simp only
    rw [hML]
    simp only
    rw [hU, hF m _ (by rw [hfail]; simp), hist_afterApplies db hist hA pre _ hok, hM]
    unfold lockedState
    rw [hL, hist_lockAttempts db hist hL]

/-- The scenario `sequence = [A, B, C]`, `applied = []`, `B` fails: the run
reports `Error` for `B`, applies `A` and `B` only, and the history ends as
`[A]`. -/
theorem Do_stops_at_failed_apply_witness :
    ∃ r, Do scripted [migA, migB, migC] 1 (Scripted.start [] ["B"]) = some r ∧
      r.result = .returned (some (.Error migB.ID (.foreign "pq.Error" "syntax error"))) ∧
      applyCalls r.trace = [migA] ++ [migB] ∧
      ((∀ t, Scripted.history (scripted.Lock t).2 = Scripted.history t) →
        (∀ t, Scripted.history (scripted.Unlock t).2 = Scripted.history t) →
        (∀ t, Scripted.history (scripted.Migrations t).2 = Scripted.history t) →
        (∀ x t, (scripted.Apply x t).1 = none →
          Scripted.history (scripted.Apply x t).2 = Scripted.history t ++ [x.ID]) →
        (∀ x t, (scripted.Apply x t).1 ≠ none →
          Scripted.history (scripted.Apply x t).2 = Scripted.history t) →
        Scripted.history r.state
          = Scripted.history (Scripted.start [] ["B"]) ++ [migA].map Migration.ID) :=
  Do_stops_at_failed_apply scripted [migA, migB, migC] (Scripted.start [] ["B"]) 0 1 []
    [migA] [migC] migB (.foreign "pq.Error" "syntax error") Scripted.history
    ⟨fun _ hj => absurd hj (Nat.not_lt_zero _), rfl⟩ (by decide) rfl rfl rfl
    ⟨by decide, trivial⟩ (by decide)

/-- C3. When some call of `Lock` succeeds and the list returned by
`Migrations` is longer than the migration sequence, `Do` returns an error and
makes no call of `Apply`; when `Migrations` reported no error of its own, the
error is the one of line 98 with the two lengths. -/
theorem Do_rejects_longer_history {σ ε : Type} (db : Database σ ε)
    (migrations : List (Migration ε)) (s : σ) (n fuel : Nat)
    (hlock : AcquiresAfter db s n) (hfuel : n < fuel)
    (hlen : (db.Migrations (lockedState db s n)).1.1.length > migrations.length) :
    ∃ r e, Do db migrations fuel s = some r ∧ r.result = .returned (some e) ∧
      applyCalls r.trace = [] ∧
      ((db.Migrations (lockedState db s n)).1.2 = none →
        e = tooManyError (db.Migrations (lockedState db s n)).1.1.length migrations.length) := by
  rcases herr : (db.Migrations (lockedState db s n)).1.2 with _ | e
  · have hmig : (db.Migrations (lockedState db s n)).1
        = ((db.Migrations (lockedState db s n)).1.1, none) := by
      rw [← herr]
    have hML := migrateLocked_too_many db migrations hmig hlen
    refine ⟨_, _, Do_of_acquiresAfter db migrations hlock hfuel, ?_, ?_, fun _ => rfl⟩
    · rw [hML]
    · simp only
      rw [hML]
      exact applyCalls_run n []
  · have hML := migrateLocked_listing_failed db migrations herr
    refine ⟨_, e, Do_of_acquiresAfter db migrations hlock hfuel, ?_, ?_, ?_⟩
    · rw [hML]
    · simp only
      rw [hML]
      exact applyCalls_run n []
    · intro h; cases h

/-- The scenario `sequence = [A]`, `applied = [A, B]`. -/
theorem Do_rejects_longer_history_witness :
    ∃ r e, Do scripted [migA] 1 (Scripted.start ["A", "B"] []) = some r ∧
      r.result = .returned (some e) ∧ applyCalls r.trace = [] ∧
      ((scripted.Migrations (lockedState scripted (Scripted.start ["A", "B"] []) 0)).1.2 = none →
        e = tooManyError
          (scripted.Migrations (lockedState scripted (Scripted.start ["A", "B"] []) 0)).1.1.length
          [migA].length) :=
  Do_rejects_longer_history scripted [migA] (Scripted.start ["A", "B"] []) 0 1
    ⟨fun _ hj => absurd hj (Nat.not_lt_zero _), rfl⟩ (by decide) (by decide)

/-- C4. When the history `applied` is no longer than the sequence and some
index `i` has `applied[i] != migrations[i].ID()`, `Do` returns an error; the
error is the one of line 103 built from `applied[i]` and `migrations[i].ID()`
for the smallest such index, and `Do` makes no call of `Apply`. -/
theorem Do_reports_first_mismatch {σ ε : Type} (db : Database σ ε)
    (migrations : List (Migration ε)) (s : σ) (n fuel : Nat) (applied : List String)
    (hlock : AcquiresAfter db s n) (hfuel : n < fuel)
    (hmig : (db.Migrations (lockedState db s n)).1 = (applied, none))
    (hlen : applied.length ≤ migrations.length)
    (hsome : ∃ (i : Nat) (a : String) (mig : Migration ε),
      applied[i]? = some a ∧ migrations[i]? = some mig ∧ a ≠ mig.ID) :
    ∃ (r : Run σ ε) (i : Nat) (a : String) (mig : Migration ε),
      Do db migrations fuel s = some r ∧
      applied[i]? = some a ∧ migrations[i]? = some mig ∧ a ≠ mig.ID ∧
      (∀ j, j < i → applied[j]? = (migrations[j]?).map Migration.ID) ∧
      r.result = .returned (some (unknownError a mig.ID)) ∧ applyCalls r.trace = [] := by
  rcases compareApplied_cases migrations applied 0 (by omega) with
    hc | ⟨i, a, mig, ha, hm, hne, hfirst, hc⟩
  · obtain ⟨i, a, mig, ha, hm, hne⟩ := hsome
    exact absurd (compareApplied_none_matches migrations applied 0 hc i a mig ha
      (by simpa using hm)) hne
  · have hML := migrateLocked_compare_failed db migrations hmig hlen hc
    refine ⟨_, i, a, mig, Do_of_acquiresAfter db migrations hlock hfuel, ha,
      by simpa using hm, hne, by simpa using hfirst, ?_, ?_⟩
    · rw [hML]
    · simp only
      rw [hML]
      exact applyCalls_run n []

/-- A history that differs from the sequence at indices 1 and 2, given by its
mismatch at index 2. -/
theorem Do_reports_first_mismatch_witness :
    ∃ (r : Run Scripted Unit) (i : Nat) (a : String) (mig : Migration Unit),
      Do scripted [migA, migB, migC] 1 (Scripted.start ["A", "X", "Y"] []) = some r ∧
      ["A", "X", "Y"][i]? = some a ∧ [migA, migB, migC][i]? = some mig ∧ a ≠ mig.ID ∧
      (∀ j, j < i → ["A", "X", "Y"][j]? = ([migA, migB, migC][j]?).map Migration.ID) ∧
      r.result = .returned (some (unknownError a mig.ID)) ∧ applyCalls r.trace = [] :=
  Do_reports_first_mismatch scripted [migA, migB, migC] (Scripted.start ["A", "X", "Y"] [])
    0 1 ["A", "X", "Y"] ⟨fun _ hj => absurd hj (Nat.not_lt_zero _), rfl⟩
    (by decide) rfl (by decide) ⟨2, "Y", migC, rfl, rfl, by decide⟩

/-- C5, as stated, fails: for `sequence = [A, B]` and `applied = [A, X]` the
message of the returned error reads "expected X but was B"; it is not the
message with `B` as the expected identifier and `X` as the one found. -/
theorem Do_mismatch_message_counterexample :
    ∃ r e, Do scripted [migA, migB] 1 (Scripted.start ["A", "X"] []) = some r ∧
      r.result = .returned (some e) ∧
      e.message = "unknown migration encountered, expected X but was B" ∧
      e.message ≠ "unknown migration encountered, expected B but was X" :=
  ⟨_, _, rfl, rfl, by decide, by decide⟩

/-- C5, amended. When reconciliation fails on an identifier mismatch at index
`i`, the message of the returned error names the identifier of the applied
history, `applied[i]`, after "expected" and the identifier of the current
sequence, `migrations[i].ID()`, after "but was". -/
theorem Do_mismatch_message {σ ε : Type} (db : Database σ ε)
    (migrations : List (Migration ε)) (s : σ) (n fuel : Nat) (applied : List String)
    (i : Nat) (a : String) (mig : Migration ε)
    (hlock : AcquiresAfter db s n) (hfuel : n < fuel)
    (hmig : (db.Migrations (lockedState db s n)).1 = (applied, none))
    (hlen : applied.length ≤ migrations.length)
    (ha : applied[i]? = some a) (hm : migrations[i]? = some mig) (hne : a ≠ mig.ID)
    (hfirst : ∀ j, j < i → applied[j]? = (migrations[j]?).map Migration.ID) :
    ∃ r e, Do db migrations fuel s = some r ∧ r.result = .returned (some e) ∧
      e.message = "unknown migration encountered, expected " ++ a ++ " but was " ++ mig.ID := by
  have hc := compareApplied_first_mismatch migrations applied 0 i a mig ha
    (by simpa using hm) hne (by simpa using hfirst)
  have hML := migrateLocked_compare_failed db migrations hmig hlen hc
  refine ⟨_, unknownError a mig.ID, Do_of_acquiresAfter db migrations hlock hfuel, ?_, rfl⟩
  rw [hML]

/-- The scenario `sequence = [A, B]`, `applied = [A, X]`. -/
theorem Do_mismatch_message_witness :
    ∃ r e, Do scripted [migA, migB] 1 (Scripted.start ["A", "X"] []) = some r ∧
      r.result = .returned (some e) ∧
      e.message = "unknown migration encountered, expected " ++ "X" ++ " but was " ++ migB.ID :=
  Do_mismatch_message scripted [migA, migB] (Scripted.start ["A", "X"] [])
    0 1 ["A", "X"] 1 "X" migB ⟨fun _ hj => absurd hj (Nat.not_lt_zero _), rfl⟩
    (by decide) rfl (by decide) rfl rfl (by decide)
    (fun j hj => by
      obtain rfl : j = 0 := by omega
      rfl)

/-- C6. When the history returned by `Migrations` has the length of the
sequence and the same identifier at every position, `Do` returns `nil` and
makes no call of `Apply`; both may be empty. -/
theorem Do_up_to_date {σ ε : Type} (db : Database σ ε)
    (migrations : List (Migration ε)) (s : σ) (n fuel : Nat) (applied : List String)
    (hlock : AcquiresAfter db s n) (hfuel : n < fuel)
    (hmig : (db.Migrations (lockedState db s n)).1 = (applied, none))
    (hsame : applied = migrations.map Migration.ID) :
    ∃ r, Do db migrations fuel s = some r ∧ r.result = .returned none ∧
      applyCalls r.trace = [] := by
  have hl : applied.length = migrations.length := by rw [hsame, List.length_map]
  have hpre : applied = (migrations.take applied.length).map Migration.ID := by
    rw [hl, List.take_length]; exact hsame
  have hd : migrations.drop applied.length = [] := by
    rw [hl]; exact List.drop_length migrations
  have hML := migrateLocked_matching db migrations hmig hpre (by rw [hd]; trivial)
  rw [hd] at hML
  refine ⟨_, Do_of_acquiresAfter db migrations hlock hfuel, ?_, ?_⟩
  · rw [hML]
  · simp only
    rw [hML]
    exact applyCalls_run n []

/-- A database whose history is `[A, B]`, run with the sequence `[A, B]`. -/
theorem Do_up_to_date_witness :
    ∃ r, Do scripted [migA, migB] 1 (Scripted.start ["A", "B"] []) = some r ∧
      r.result = .returned none ∧ applyCalls r.trace = [] :=
  Do_up_to_date scripted [migA, migB] (Scripted.start ["A", "B"] []) 0 1 ["A", "B"]
    ⟨fun _ hj => absurd hj (Nat.not_lt_zero _), rfl⟩ (by decide) rfl rfl

/-! ## The lock is released, and the result is one of a few -/

/-- C7. In every run of `Do` that ends (some call of `Lock` succeeds),
whatever the outcome, the trace is: the failed calls of `Lock`, the one
successful `Lock`, the call of `Migrations`, the calls of `Apply`, and then
`Unlock` as the last action.  `Unlock` is called exactly once, after the one
successful `Lock` and after every other call. -/
theorem Do_unlocks_once_at_end {σ ε : Type} (db : Database σ ε)
    (migrations : List (Migration ε)) (s : σ) (n fuel : Nat)
    (hlock : AcquiresAfter db s n) (hfuel : n < fuel) :
    ∃ r, Do db migrations fuel s = some r ∧
      r.trace = lockTrace ε n ++ (Event.Migrations :: (applyCalls r.trace).map Event.Apply)
        ++ [Event.Unlock] ∧
      unlockCount r.trace = 1 ∧ lockedCount r.trace = 1 ∧
      unlockCount (lockTrace ε n) = 0 := by
  obtain ⟨done, hd⟩ := migrateLocked_trace db migrations (lockedState db s n)
  refine ⟨_, Do_of_acquiresAfter db migrations hlock hfuel, ?_, ?_, ?_, (counts_lockTrace n).1⟩
  · simp only
    rw [hd, applyCalls_run]
  · simp only
    rw [hd]
    simp [unlockCount_append, unlockCount, (counts_lockTrace (ε := ε) n).1,
      (counts_map_apply done).1]
  · simp only
    rw [hd]
    simp [lockedCount_append, lockedCount, (counts_lockTrace (ε := ε) n).2,
      (counts_map_apply done).2]

/-- A run with one failed `Lock`, a failing second migration and a failing
`Unlock`. -/
theorem Do_unlocks_once_at_end_witness :
    ∃ r, Do scripted [migA, migB, migC] 2
        { Scripted.start [] ["B"] with
          lockFailures := 1, unlockError := some (.errorString "rollback failed") } = some r ∧
      r.trace = lockTrace Unit 1 ++ (Event.Migrations :: (applyCalls r.trace).map Event.Apply)
        ++ [Event.Unlock] ∧
      unlockCount r.trace = 1 ∧ lockedCount r.trace = 1 ∧
      unlockCount (lockTrace Unit 1) = 0 :=
  Do_unlocks_once_at_end scripted [migA, migB, migC]
    { Scripted.start [] ["B"] with
      lockFailures := 1, unlockError := some (.errorString "rollback failed") } 1 2
    (by decide) (by decide)

/-- C8. The result of `Do` does not depend on `Unlock`: replacing the
backend's `Unlock` by any other one (one that fails where the first succeeds)
leaves the returned value, and the actions performed, the same. -/
theorem Do_result_independent_of_unlock {σ ε : Type} (db : Database σ ε)
    (unlock : σ → Option GoError × σ) (migrations : List (Migration ε)) (s : σ)
    (n fuel : Nat) (hlock : AcquiresAfter db s n) (hfuel : n < fuel) :
    ∃ r1 r2, Do db migrations fuel s = some r1 ∧
      Do { db with Unlock := unlock } migrations fuel s = some r2 ∧
      r1.result = r2.result ∧ r1.trace = r2.trace := by
  refine ⟨_,
    { result := (migrateLocked db migrations (lockedState db s n)).1
      state := (unlock (migrateLocked db migrations (lockedState db s n)).2.1).2
      trace := lockTrace ε n ++ (migrateLocked db migrations (lockedState db s n)).2.2
        ++ [Event.Unlock] },
    Do_of_acquiresAfter db migrations hlock hfuel, ?_, rfl, rfl⟩
  unfold Do
  rw [acquire_unlock_irrelevant, acquire_of_acquiresAfter db n fuel s hlock hfuel]
  simp only [migrateLocked_unlock_irrelevant]

/-- The run of `TestDo` compared with the same run over a backend whose
`Unlock` fails. -/
theorem Do_result_independent_of_unlock_witness :
    ∃ r1 r2, Do testDatabase testMigrations 1 emptyTestDatabase = some r1 ∧
      Do { testDatabase with Unlock := fun t => (some (.errorString "unlock failed"), t) }
        testMigrations 1 emptyTestDatabase = some r2 ∧
      r1.result = r2.result ∧ r1.trace = r2.trace :=
  Do_result_independent_of_unlock testDatabase
    (fun t => (some (.errorString "unlock failed"), t)) testMigrations emptyTestDatabase 0 1
    (by decide) (by decide)

/-- C9, as stated, fails: when `Migrations` itself fails, `Do` returns the
backend's error unchanged, which is neither a reconciliation error of line 98
or line 103 nor a value of type `Error`. -/
theorem Do_result_kinds_counterexample :
    ∃ r, Do scripted [migA] 1
        { Scripted.start [] [] with
          listError := some (.foreign "net.OpError" "connection refused") } = some r ∧
      r.result = .returned (some (.foreign "net.OpError" "connection refused")) ∧
      (∀ a k, GoError.foreign "net.OpError" "connection refused" ≠ tooManyError a k) ∧
      (∀ x y, GoError.foreign "net.OpError" "connection refused" ≠ unknownError x y) ∧
      (∀ id cause, GoError.foreign "net.OpError" "connection refused" ≠ .Error id cause) :=
  ⟨_, rfl, rfl, fun _ _ h => GoError.noConfusion h, fun _ _ h => GoError.noConfusion h,
    fun _ _ h => GoError.noConfusion h⟩

/-- C9, amended. Every result of `Do` is exactly one of: the error returned
by the backend's `Migrations`, unchanged; otherwise success (`nil`), the
too-long-history error with both lengths, the mismatch error for the first
differing position, or an `Error` carrying the identifier of a pending
migration and the cause returned by its `Apply`.  `Do` never panics. -/
theorem Do_result_kinds {σ ε : Type} (db : Database σ ε)
    (migrations : List (Migration ε)) (s : σ) (n fuel : Nat) (applied : List String)
    (listErr : Option GoError)
    (hlock : AcquiresAfter db s n) (hfuel : n < fuel)
    (hmig : (db.Migrations (lockedState db s n)).1 = (applied, listErr)) :
    ∃ r, Do db migrations fuel s = some r ∧
      ((∃ e, listErr = some e ∧ r.result = .returned (some e)) ∨
        (listErr = none ∧
          (r.result = .returned none ∨
            (applied.length > migrations.length ∧
              r.result = .returned (some (tooManyError applied.length migrations.length))) ∨
            (∃ (i : Nat) (a : String) (mig : Migration ε),
              applied[i]? = some a ∧ migrations[i]? = some mig ∧ a ≠ mig.ID ∧
              (∀ j, j < i → applied[j]? = (migrations[j]?).map Migration.ID) ∧
              r.result = .returned (some (unknownError a mig.ID))) ∨
            (∃ m t cause, m ∈ migrations.drop applied.length ∧
              (db.Apply m t).1 = some cause ∧
              r.result = .returned (some (.Error m.ID cause)))))) := by
  refine ⟨_, Do_of_acquiresAfter db migrations hlock hfuel, ?_⟩
  simp only
  cases listErr with
  | some e =>
    left
    refine ⟨e, rfl, ?_⟩
    rw [migrateLocked_listing_failed db migrations (e := e) (by rw [hmig])]
  | none =>
    right
    refine ⟨rfl, ?_⟩
    by_cases hlen : applied.length > migrations.length
    · right; left
      refine ⟨hlen, ?_⟩
      rw [migrateLocked_too_many db migrations hmig hlen]
    · have hle : applied.length ≤ migrations.length := Nat.le_of_not_lt hlen
      rcases compareApplied_cases migrations applied 0 (by omega) with
        hc | ⟨i, a, mig, ha, hm, hne, hfirst, hc⟩
      · rw [migrateLocked_compare_passed db migrations hmig hle hc]
        rcases applyPending_result db (migrations.drop applied.length)
            (db.Migrations (lockedState db s n)).2 with h | ⟨m, t, cause, hmem, hcause, h⟩
        · left
          simp only [h]
        · right; right; right
          exact ⟨m, t, cause, hmem, hcause, by simp only [h]⟩
      · right; right; left
        refine ⟨i, a, mig, ha, by simpa using hm, hne, by simpa using hfirst, ?_⟩
        rw [migrateLocked_compare_failed db migrations hmig hle hc]

/-- The run whose `Migrations` call fails with a driver error. -/
theorem Do_result_kinds_witness :
    ∃ r, Do scripted [migA] 1
        { Scripted.start [] [] with
          listError := some (.foreign "net.OpError" "connection refused") } = some r ∧
      ((∃ e, some (GoError.foreign "net.OpError" "connection refused") = some e ∧
          r.result = .returned (some e)) ∨
        (some (GoError.foreign "net.OpError" "connection refused") = none ∧
          (r.result = .returned none ∨
            (([] : List String).length > [migA].length ∧
              r.result = .returned (some (tooManyError ([] : List String).length
                [migA].length))) ∨
            (∃ (i : Nat) (a : String) (mig : Migration Unit),
              ([] : List String)[i]? = some a ∧ [migA][i]? = some mig ∧ a ≠ mig.ID ∧
              (∀ j, j < i → ([] : List String)[j]? = ([migA][j]?).map Migration.ID) ∧
              r.result = .returned (some (unknownError a mig.ID))) ∨
            (∃ m t cause, m ∈ [migA].drop ([] : List String).length ∧
              (scripted.Apply m t).1 = some cause ∧
              r.result = .returned (some (.Error m.ID cause)))))) :=
  Do_result_kinds scripted [migA]
    { Scripted.start [] [] with
      listError := some (.foreign "net.OpError" "connection refused") } 0 1 []
    (some (.foreign "net.OpError" "connection refused")) (by decide) (by decide) rfl

/-! ## The history reported by the PostgreSQL backend -/

/-- C10, as stated, fails: after `create_users` and then `add_email` have been
applied successfully to an empty table, `Postgres.Migrations` returns
`add_email` first, which is not the order of application. -/
theorem Postgres_history_order_counterexample :
    AppliesSucceed (postgres byCodepoint)
        [sqlMigration "create_users", sqlMigration "add_email"] freshPostgres ∧
      ((postgres byCodepoint).Migrations
          (afterApplies (postgres byCodepoint)
            [sqlMigration "create_users", sqlMigration "add_email"] freshPostgres)).1
        = (["add_email", "create_users"], none) ∧
      ["add_email", "create_users"]
        ≠ [sqlMigration "create_users", sqlMigration "add_email"].map Migration.ID :=
  ⟨⟨rfl, rfl, trivial⟩, rfl, by decide⟩

/-- C10, amended. For every list of migrations whose payloads leave the rows
of `schema_migrations` alone and whose identifiers have at most 255
characters, applied successfully one after another with `Postgres.Apply` to an
empty `schema_migrations` table, a successful `Postgres.Migrations` returns
exactly their identifiers in ascending order of the identifier under the
collation of the column (a total and transitive order), as the query's
`ORDER BY identifier` asks; this is the order of application when the
migrations were applied in ascending order of their identifiers. -/
theorem Postgres_history_in_identifier_order (collate : String → String → Bool)
    (ms : List (Migration Tx)) (p : Postgres) (ids : List String)
    (htotal : ∀ a b, collate a b = true ∨ collate b a = true)
    (htrans : ∀ a b c, collate a b = true → collate b c = true → collate a c = true)
    (hempty : p.db.store.schema_migrations = some [])
    (hpay : ∀ m ∈ ms, ∀ t, (m.Migrate t).2.view.schema_migrations = t.view.schema_migrations)
    (hid : ∀ m ∈ ms, m.ID.length ≤ 255)
    (hok : AppliesSucceed (postgres collate) ms p)
    (hmig : ((postgres collate).Migrations (afterApplies (postgres collate) ms p)).1
      = (ids, none)) :
    ids.Sorted (fun a b => collate a b = true) ∧ ids.Perm (ms.map Migration.ID) ∧
      ((ms.map Migration.ID).Sorted (fun a b => collate a b = true) →
        ids = ms.map Migration.ID) := by
  have hrows := Postgres.afterApplies_rows collate ms p [] hpay hid hempty hok
  rw [List.nil_append] at hrows
  have hids : ids = (ms.map Migration.ID).insertionSort fun a b => collate a b = true :=
    Postgres.Migrations_ok hrows hmig
  haveI : IsTotal String (fun a b => collate a b = true) := ⟨htotal⟩
  haveI : IsTrans String (fun a b => collate a b = true) := ⟨htrans⟩
  refine ⟨?_, ?_, ?_⟩
  · rw [hids]; exact List.sorted_insertionSort _ _
  · rw [hids]; exact List.perm_insertionSort _ _
  · intro hs; rw [hids]; exact hs.insertionSort_eq

/-- Two migrations applied out of identifier order come back sorted; applied
in identifier order they come back in the order of application. -/
theorem Postgres_history_in_identifier_order_witness :
    (["add_email", "create_users"].Sorted (fun a b => byCodepoint a b = true) ∧
        ["add_email", "create_users"].Perm
          ([sqlMigration "create_users", sqlMigration "add_email"].map Migration.ID)) ∧
      ["add_email", "create_users"]
        = [sqlMigration "add_email", sqlMigration "create_users"].map Migration.ID :=
  ⟨⟨(Postgres_history_in_identifier_order byCodepoint
        [sqlMigration "create_users", sqlMigration "add_email"] freshPostgres
        ["add_email", "create_users"] byCodepoint_total byCodepoint_trans rfl
        (fun m hm t => by
          simp only [List.mem_cons, List.mem_singleton, List.not_mem_nil, or_false] at hm
          rcases hm with rfl | rfl <;> rfl)
        (fun m hm => by
          simp only [List.mem_cons, List.mem_singleton, List.not_mem_nil, or_false] at hm
          rcases hm with rfl | rfl <;> decide)
        ⟨rfl, rfl, trivial⟩ rfl).1,
      (Postgres_history_in_identifier_order byCodepoint
        [sqlMigration "create_users", sqlMigration "add_email"] freshPostgres
        ["add_email", "create_users"] byCodepoint_total byCodepoint_trans rfl
        (fun m hm t => by
          simp only [List.mem_cons, List.mem_singleton, List.not_mem_nil, or_false] at hm
          rcases hm with rfl | rfl <;> rfl)
        (fun m hm => by
          simp only [List.mem_cons, List.mem_singleton, List.not_mem_nil, or_false] at hm
          rcases hm with rfl | rfl <;> decide)
        ⟨rfl, rfl, trivial⟩ rfl).2.1⟩,
    (Postgres_history_in_identifier_order byCodepoint
        [sqlMigration "add_email", sqlMigration "create_users"] freshPostgres
        ["add_email", "create_users"] byCodepoint_total byCodepoint_trans rfl
        (fun m hm t => by
          simp only [List.mem_cons, List.mem_singleton, List.not_mem_nil, or_false] at hm
          rcases hm with rfl | rfl <;> rfl)
        (fun m hm => by
          simp only [List.mem_cons, List.mem_singleton, List.not_mem_nil, or_false] at hm
          rcases hm with rfl | rfl <;> decide)
        ⟨rfl, rfl, trivial⟩ rfl).2.2 (by decide)⟩

set_option maxRecDepth 20000 in
/-- An identifier of 256 characters that ends in a space is accepted by
`Postgres.Apply`, and `Postgres.Migrations` then returns its first 255
characters, not the identifier. -/
theorem Postgres_long_identifier_example :
    (Postgres.Apply (sqlMigration longIdentifier) freshPostgres).1 = none ∧
      (Postgres.Migrations byCodepoint
          (Postgres.Apply (sqlMigration longIdentifier) freshPostgres).2).1
        = ([String.mk (List.replicate 255 'a')], none) ∧
      String.mk (List.replicate 255 'a') ≠ longIdentifier := by
  refine ⟨by decide, by decide, by decide⟩

/-- After `a` and then a migration `b` whose payload deletes the rows of
`schema_migrations`, both applied successfully, the history is `b` alone. -/
theorem Postgres_clearing_payload_example :
    AppliesSucceed (postgres byCodepoint) [sqlMigration "a", clearingMigration "b"]
        freshPostgres ∧
      ((postgres byCodepoint).Migrations
          (afterApplies (postgres byCodepoint) [sqlMigration "a", clearingMigration "b"]
            freshPostgres)).1 = (["b"], none) :=
  ⟨⟨rfl, rfl, trivial⟩, rfl⟩

/-! ## Atomicity of `Postgres.Apply` and the lock handle -/

theorem Tx.Exec_store (q : Stmt) (db : DB) (tx : Tx) : (tx.Exec q db).2.1.store = db.store := by
  unfold Tx.Exec
  by_cases h1 : tx.closed = true
  · simp [h1]
  · simp only [h1, Bool.false_eq_true, ↓reduceIte]
    have hs := DB.call_store (.txExec q) db
    rcases hc : db.call (.txExec q) with ⟨f, db1⟩
    rw [hc] at hs
    cases f with
    | some err => exact hs
    | none =>
      simp only at hs ⊢
      split
      · exact hs
      · split <;> exact hs

theorem Tx.Exec_ok_eq {q : Stmt} {db : DB} {tx : Tx} (h : (tx.Exec q db).1 = none) :
    ∃ st, tx.view.run q = .ok st ∧ (tx.Exec q db).2.2 = { tx with view := st } := by
  unfold Tx.Exec at h ⊢
  by_cases h1 : tx.closed = true
  · simp [h1] at h
  · simp only [h1, Bool.false_eq_true, ↓reduceIte] at h ⊢
    rcases hc : db.call (.txExec q) with ⟨f, db1⟩
    rw [hc] at h
    cases f with
    | some err => simp at h
    | none =>
      simp only at h ⊢
      by_cases h2 : tx.failed = true
      · simp [h2] at h
      · simp only [h2, Bool.false_eq_true, ↓reduceIte] at h ⊢
        rcases hr : tx.view.run q with err | st
        · simp [hr] at h
        · exact ⟨st, rfl, rfl⟩

theorem Tx.Commit_failed {db : DB} {tx : Tx} (h : (tx.Commit db).1 ≠ none) :
    (tx.Commit db).2.1.store = db.store := by
  unfold Tx.Commit at h ⊢
  by_cases h1 : tx.closed = true
  · simp [h1]
  · simp only [h1, Bool.false_eq_true, ↓reduceIte] at h ⊢
    have hs := DB.call_store .commit db
    rcases hc : db.call .commit with ⟨f, db1⟩
    rw [hc] at h hs
    cases f with
    | some err => exact hs
    | none =>
      simp only at h hs ⊢
      by_cases h2 : tx.failed = true
      · simp only [h2, ↓reduceIte]; exact hs
      · simp [h2] at h

theorem Postgres.applyInTx_failed {m : Migration Tx} {db : DB} {tx : Tx}
    (h : (Postgres.applyInTx m db tx).1 ≠ none) :
    (Postgres.applyInTx m db tx).2.1.store = db.store := by
  unfold Postgres.applyInTx at h ⊢
  have s1 := Tx.Exec_store .setTimezone db tx
  rcases h1 : tx.Exec .setTimezone db with ⟨e1, db1, tx1⟩
  rw [h1] at h s1
  simp only at s1
  cases e1 with
  | some err => exact s1
  | none =>
    simp only at h ⊢
    rcases h2 : m.Migrate tx1 with ⟨e2, tx2⟩
    rw [h2] at h
    cases e2 with
    | some err => exact s1
    | none =>
      simp only at h ⊢
      have s3 := Tx.Exec_store (.insertIdentifier m.ID) db1 tx2
      rcases h3 : tx2.Exec (.insertIdentifier m.ID) db1 with ⟨e3, db2, tx3⟩
      rw [h3] at h s3
      simp only at s3
      cases e3 with
      | some err => simp only; rw [s3, s1]
      | none =>
        simp only at h ⊢
        rw [Tx.Commit_failed h, s3, s1]

theorem Postgres.applyInTx_committed {m : Migration Tx} {db : DB} {tx : Tx}
    (h : (Postgres.applyInTx m db tx).1 = none) :
    ∃ tx2, m.Migrate tx = (none, tx2) ∧
      tx2.view.run (.insertIdentifier m.ID) = .ok (Postgres.applyInTx m db tx).2.1.store := by
  unfold Postgres.applyInTx at h ⊢
  rcases h1 : tx.Exec .setTimezone db with ⟨e1, db1, tx1⟩
  rw [h1] at h
  cases e1 with
  | some err => simp at h
  | none =>
    obtain ⟨st, hst, htx⟩ := @Tx.Exec_ok_eq .setTimezone db tx (by rw [h1])
    rw [h1] at htx
    simp only [Store.run, Except.ok.injEq] at hst
    simp only at htx
    subst hst
    have htx1 : tx1 = tx := htx
    subst htx1
    simp only at h ⊢
    rcases h2 : m.Migrate tx1 with ⟨e2, tx2⟩
    rw [h2] at h
    cases e2 with
    | some err => simp at h
    | none =>
      refine ⟨tx2, rfl, ?_⟩
      simp only at h ⊢
      rcases h3 : tx2.Exec (.insertIdentifier m.ID) db1 with ⟨e3, db2, tx3⟩
      rw [h3] at h
      cases e3 with
      | some err => simp at h
      | none =>
        have k3 := @Tx.Exec_ok (.insertIdentifier m.ID) db1 tx2 (by rw [h3])
        rw [h3] at k3
        simp only at h k3 ⊢
        rw [Tx.Commit_ok h]
        exact k3.1

theorem Store.run_insert_shape {id : String} {st st1 : Store}
    (h : st.run (.insertIdentifier id) = .ok st1) :
    st1.schema = st.schema ∧
      ∃ rows, st.schema_migrations = some rows ∧
        st1.schema_migrations = some (rows ++ [String.mk (id.data.take 255)]) := by
  unfold Store.run at h
  rcases hr : st.schema_migrations with _ | rows
  · simp [hr] at h
  · simp only [hr] at h
    split at h
    · split at h
      · cases h
      · cases h; exact ⟨rfl, rows, rfl, rfl⟩
    · cases h

/-- C11. With a transaction modelled as staged changes that become visible
on `Commit`: when `Postgres.Apply` returns an error, whichever step failed
(`Begin`, setting the time zone, the migration's `Migrate`, the insert of the
identifier, or `Commit`), the committed contents, schema effects and rows of
`schema_migrations` alike, are what they were before the call; when it
returns `nil`, `Migrate` has returned `nil` on the fresh transaction and the
committed contents are the ones it left with the row of the identifier
inserted. -/
theorem Postgres_Apply_atomic (m : Migration Tx) (p : Postgres) :
    ((Postgres.Apply m p).1 ≠ none → (Postgres.Apply m p).2.db.store = p.db.store) ∧
      ((Postgres.Apply m p).1 = none →
        ∃ tx2, m.Migrate { view := p.db.store, failed := false, closed := false }
            = (none, tx2) ∧
          tx2.view.run (.insertIdentifier m.ID) = .ok (Postgres.Apply m p).2.db.store ∧
          (Postgres.Apply m p).2.db.store.schema = tx2.view.schema ∧
          ∃ rows, tx2.view.schema_migrations = some rows ∧
            (Postgres.Apply m p).2.db.store.schema_migrations
              = some (rows ++ [String.mk (m.ID.data.take 255)])) := by
  unfold Postgres.Apply DB.Begin
  have hs := DB.call_store .beginTx p.db
  rcases hc : p.db.call .beginTx with ⟨f, db1⟩
  rw [hc] at hs
  simp only at hs
  cases f with
  | some err => exact ⟨fun _ => hs, fun h => by simp at h⟩
  | none =>
    simp only
    constructor
    · intro h
      rw [Tx.Rollback_store, Postgres.applyInTx_failed h, hs]
    · intro h
      obtain ⟨tx2, hm, hrun⟩ := @Postgres.applyInTx_committed m db1
        { view := db1.store, failed := false, closed := false } h
      obtain ⟨hschema, rows, hr, hr1⟩ := Store.run_insert_shape hrun
      rw [hs] at hm
      refine ⟨tx2, hm, ?_, ?_, rows, hr, ?_⟩
      · rw [Tx.Rollback_store]; exact hrun
      · rw [Tx.Rollback_store]; exact hschema
      · rw [Tx.Rollback_store]; exact hr1

/-- C17. The lock handle of `Postgres` has two states.  `Lock` on a held lock
returns an error and leaves everything, the log of database calls included,
as it was; a failing `Lock` on a free lock leaves it free and a successful
one leaves it held; `Unlock` on a free lock returns an error and changes
nothing; after `Unlock` on a held lock the lock is free, whatever `Rollback`
reported, and the result of `Unlock` is that of `Rollback`. -/
theorem Postgres_lock_two_states (p : Postgres) :
    (p.lock.isSome = true →
        Postgres.Lock p = (some (.errorString "lock already acquired"), p)) ∧
      (p.lock = none → (Postgres.Lock p).1 ≠ none → (Postgres.Lock p).2.lock = none) ∧
      (p.lock = none → (Postgres.Lock p).1 = none → (Postgres.Lock p).2.lock.isSome = true) ∧
      (p.lock = none →
        Postgres.Unlock p = (some (.errorString "unable to unlock, lock not acquired"), p)) ∧
      (∀ tx, p.lock = some tx →
        (Postgres.Unlock p).2.lock = none ∧ (Postgres.Unlock p).1 = (tx.Rollback p.db).1) := by
  refine ⟨?_, ?_, ?_, ?_, ?_⟩
  · intro h
    unfold Postgres.Lock
    rw [if_pos h]
  · intro h0 h
    unfold Postgres.Lock at h ⊢
    simp only [h0, Option.isSome_none, Bool.false_eq_true, ↓reduceIte] at h ⊢
    rcases h1 : p.db.Exec .createLockTable with ⟨e1, db1⟩
    rw [h1] at h
    cases e1 with
    | some err => rfl
    | none =>
      simp only at h ⊢
      rcases h2 : db1.Begin with ⟨b, db2⟩
      rw [h2] at h
      cases b with
      | error err => rfl
      | ok tx =>
        simp only at h ⊢
        rcases h3 : tx.Exec .lockTable db2 with ⟨e3, db3, tx3⟩
        rw [h3] at h
        cases e3 with
        | some err => rfl
        | none => simp at h
  · intro h0 h
    unfold Postgres.Lock at h ⊢
    simp only [h0, Option.isSome_none, Bool.false_eq_true, ↓reduceIte] at h ⊢
    rcases h1 : p.db.Exec .createLockTable with ⟨e1, db1⟩
    rw [h1] at h
    cases e1 with
    | some err => simp at h
    | none =>
      simp only at h ⊢
      rcases h2 : db1.Begin with ⟨b, db2⟩
      rw [h2] at h
      cases b with
      | error err => simp at h
      | ok tx =>
        simp only at h ⊢
        rcases h3 : tx.Exec .lockTable db2 with ⟨e3, db3, tx3⟩
        rw [h3] at h
        cases e3 with
        | some err => simp at h
        | none => rfl
  · intro h0
    unfold Postgres.Unlock
    rw [h0]
  · intro tx h0
    unfold Postgres.Unlock
    rw [h0]
    exact ⟨rfl, rfl⟩

/-! ## The retry loop, bounds of the comparison, and the text of `Error` -/

/-- C19. For every `Error` value with identifier `id` and cause `e`,
`Error()` is "migrate failed for ", then `id`, then ": ", then the message of
`e`; so both the identifier and the message of the cause occur in the text. -/
theorem Error_message_text (id : String) (e : GoError) :
    (GoError.Error id e).message = "migrate failed for " ++ id ++ ": " ++ e.message ∧
      (∃ before after, (GoError.Error id e).message = before ++ id ++ after) ∧
      ∃ before, (GoError.Error id e).message = before ++ e.message :=
  ⟨rfl, ⟨"migrate failed for ", ": " ++ e.message, by simp [GoError.message, String.append_assoc]⟩,
    ⟨"migrate failed for " ++ id ++ ": ", rfl⟩⟩

theorem migrateLocked_returned {σ ε : Type} (db : Database σ ε)
    (migrations : List (Migration ε)) (s : σ) :
    ∃ e, (migrateLocked db migrations s).1 = .returned e := by
  rcases hM : (db.Migrations s).1 with ⟨applied, listErr⟩
  cases listErr with
  | some e =>
    exact ⟨some e, by rw [migrateLocked_listing_failed db migrations (by rw [hM])]⟩
  | none =>
    by_cases hlen : applied.length > migrations.length
    · exact ⟨_, by rw [migrateLocked_too_many db migrations hM hlen]⟩
    · have hle : applied.length ≤ migrations.length := Nat.le_of_not_lt hlen
      rcases compareApplied_cases migrations applied 0 (by omega) with
        hc | ⟨i, a, mig, _, _, _, _, hc⟩
      · exact ⟨_, by rw [migrateLocked_compare_passed db migrations hM hle hc]⟩
      · exact ⟨_, by rw [migrateLocked_compare_failed db migrations hM hle hc]⟩

theorem lockTrace_eq_failedAttempts (ε : Type) (n : Nat) :
    lockTrace ε n = failedAttempts ε n ++ [Event.Lock true] := by
  induction n with
  | zero => rfl
  | succ n ih => simp [lockTrace, failedAttempts, ih]

theorem lockCalls_append {ε : Type} (a b : List (Event ε)) :
    lockCalls (a ++ b) = lockCalls a + lockCalls b := by
  induction a with
  | nil => simp [lockCalls]
  | cons x xs ih =>
    cases x <;> simp [lockCalls, ih]
    omega

theorem sleepCount_append {ε : Type} (a b : List (Event ε)) :
    sleepCount (a ++ b) = sleepCount a + sleepCount b := by
  induction a with
  | nil => simp [sleepCount]
  | cons x xs ih =>
    cases x <;> simp [sleepCount, ih]
    omega

theorem counts_failedAttempts (ε : Type) (n : Nat) :
    lockCalls (failedAttempts ε n) = n ∧ sleepCount (failedAttempts ε n) = n := by
  induction n with
  | zero => exact ⟨rfl, rfl⟩
  | succ n ih =>
    obtain ⟨h1, h2⟩ := ih
    constructor
    · simp [failedAttempts, lockCalls, h1]
    · simp [failedAttempts, lockCalls, sleepCount, h2]
      omega

theorem lock_sleep_counts_map_apply {ε : Type} (l : List (Migration ε)) :
    lockCalls (l.map Event.Apply) = 0 ∧ sleepCount (l.map Event.Apply) = 0 := by
  induction l with
  | nil => exact ⟨rfl, rfl⟩
  | cons x xs ih => simpa [lockCalls, sleepCount] using ih

/-- C18. The comparison of lines 101-105 never reads `migrations[i]` past the
end of the slice: for a history no longer than the sequence the loop does not
panic, and every run of `Do` that ends, whatever the history and the
sequence (the empty one included), ends by returning, not by a panic. -/
theorem Do_comparison_in_bounds {σ ε : Type} (db : Database σ ε)
    (migrations : List (Migration ε)) (s : σ) (n fuel : Nat)
    (hlock : AcquiresAfter db s n) (hfuel : n < fuel) :
    (∃ r e, Do db migrations fuel s = some r ∧ r.result = .returned e) ∧
      ∀ applied : List String, applied.length ≤ migrations.length →
        ∀ msg, compareApplied migrations 0 applied ≠ some (.panicked msg) := by
  constructor
  · obtain ⟨e, he⟩ := migrateLocked_returned db migrations (lockedState db s n)
    exact ⟨_, e, Do_of_acquiresAfter db migrations hlock hfuel, he⟩
  · intro applied hle msg h
    rcases compareApplied_cases migrations applied 0 (by omega) with
      hc | ⟨i, a, mig, _, _, _, _, hc⟩
    · rw [hc] at h; cases h
    · rw [hc] at h; cases h

/-- A run with an empty sequence and an empty history. -/
theorem Do_comparison_in_bounds_witness :
    (∃ r e, Do scripted [] 1 (Scripted.start [] []) = some r ∧ r.result = .returned e) ∧
      ∀ applied : List String, applied.length ≤ ([] : List (Migration Unit)).length →
        ∀ msg, compareApplied ([] : List (Migration Unit)) 0 applied ≠ some (.panicked msg) :=
  Do_comparison_in_bounds scripted [] (Scripted.start [] []) 0 1
    ⟨fun _ hj => absurd hj (Nat.not_lt_zero _), rfl⟩ (by decide)

/-- C15. When `Lock` fails on its first `n` calls and succeeds on call
`n + 1`, `Do` ends; its trace is `n` times a failed `Lock` followed by a sleep
of the retry interval, and then the trace of the run started in the state the
failures left, whose first `Lock` succeeds.  So `Lock` is called `n + 1`
times, the run sleeps `n` times, nothing else happens before the successful
`Lock`, and the result is that of the run without a failure. -/
theorem Do_retries_lock {σ ε : Type} (db : Database σ ε)
    (migrations : List (Migration ε)) (s : σ) (n fuel : Nat)
    (hlock : AcquiresAfter db s n) (hfuel : n < fuel) :
    ∃ r r0, Do db migrations fuel s = some r ∧
      Do db migrations 1 (lockAttempts db n s) = some r0 ∧
      r.result = r0.result ∧ r.state = r0.state ∧
      r.trace = failedAttempts ε n ++ r0.trace ∧
      lockCalls r.trace = n + 1 ∧ sleepCount r.trace = n ∧
      ∃ body, r0.trace = Event.Lock true :: body ∧ lockCalls body = 0 ∧ sleepCount body = 0 := by
  have h0 : AcquiresAfter db (lockAttempts db n s) 0 :=
    ⟨fun _ hj => absurd hj (Nat.not_lt_zero _), hlock.2⟩
  have hstate : lockedState db (lockAttempts db n s) 0 = lockedState db s n := rfl
  obtain ⟨done, hd⟩ := migrateLocked_trace db migrations (lockedState db s n)
  have hbody : lockCalls (Event.Migrations :: done.map Event.Apply ++ [Event.Unlock]) = 0 ∧
      sleepCount (Event.Migrations :: done.map Event.Apply ++ [Event.Unlock]) = 0 := by
    constructor
    · simp [lockCalls, lockCalls_append, (lock_sleep_counts_map_apply done).1]
    · simp [sleepCount, sleepCount_append, (lock_sleep_counts_map_apply done).2]
  refine ⟨_, _, Do_of_acquiresAfter db migrations hlock hfuel,
    Do_of_acquiresAfter db migrations h0 (Nat.lt_succ_self 0), ?_, ?_, ?_, ?_, ?_, ?_⟩
  · rw [hstate]
  · rw [hstate]
  · simp only
    rw [hstate, lockTrace_eq_failedAttempts ε n]
    simp [lockTrace]
  · simp only
    rw [hd, lockTrace_eq_failedAttempts ε n]
    simp only [List.append_assoc, lockCalls_append, (counts_failedAttempts ε n).1]
    simp [lockCalls, lockCalls_append, (lock_sleep_counts_map_apply done).1]
  · simp only
    rw [hd, lockTrace_eq_failedAttempts ε n]
    simp only [List.append_assoc, sleepCount_append, (counts_failedAttempts ε n).2]
    simp [sleepCount, sleepCount_append, (lock_sleep_counts_map_apply done).2]
  · refine ⟨Event.Migrations :: done.map Event.Apply ++ [Event.Unlock], ?_, hbody.1, hbody.2⟩
    simp only
    rw [hstate, hd]
    simp [lockTrace]

/-- A backend whose `Lock` fails twice before it succeeds. -/
theorem Do_retries_lock_witness :
    ∃ r r0, Do scripted [migA, migB] 3 { Scripted.start ["A"] [] with lockFailures := 2 }
        = some r ∧
      Do scripted [migA, migB] 1
        (lockAttempts scripted 2 { Scripted.start ["A"] [] with lockFailures := 2 }) = some r0 ∧
      r.result = r0.result ∧ r.state = r0.state ∧
      r.trace = failedAttempts Unit 2 ++ r0.trace ∧
      lockCalls r.trace = 2 + 1 ∧ sleepCount r.trace = 2 ∧
      ∃ body, r0.trace = Event.Lock true :: body ∧ lockCalls body = 0 ∧ sleepCount body = 0 :=
  Do_retries_lock scripted [migA, migB] { Scripted.start ["A"] [] with lockFailures := 2 } 2 3
    (by decide) (by decide)

/-! ## Running `Do` again -/

theorem matching_of_compareApplied_none {ε : Type} (migrations : List (Migration ε)) :
    ∀ (applied : List String) (o : Nat), compareApplied migrations o applied = none →
      applied = ((migrations.drop o).take applied.length).map Migration.ID := by
  intro applied
  induction applied with
  | nil => intro o _; simp
  | cons x rest ih =>
    intro o h
    unfold compareApplied at h
    rcases hg : migrations[o]? with _ | m0
    · rw [hg] at h; simp at h
    · rw [hg] at h
      simp only at h
      obtain ⟨ho, hm0⟩ := List.getElem?_eq_some.mp hg
      by_cases hx : x = m0.ID
      · rw [if_neg (by simp [hx])] at h
        have hrest := ih (o + 1) h
        rw [List.drop_eq_getElem_cons ho, hm0]
        simp only [List.length_cons, List.take_succ_cons, List.map_cons]
        rw [← hrest, hx]
      · rw [if_pos (by simpa using hx)] at h
        cases h

theorem append_pending_ids {ε : Type} {migrations : List (Migration ε)} {applied : List String}
    (h : applied = (migrations.take applied.length).map Migration.ID) :
    applied ++ (migrations.drop applied.length).map Migration.ID
      = migrations.map Migration.ID := by
  calc applied ++ (migrations.drop applied.length).map Migration.ID
      = (migrations.take applied.length).map Migration.ID
          ++ (migrations.drop applied.length).map Migration.ID := by rw [← h]
    _ = migrations.map Migration.ID := by rw [← List.map_append, List.take_append_drop]

theorem matching_of_migrateLocked_nil {σ ε : Type} (db : Database σ ε)
    (migrations : List (Migration ε)) {s : σ} {applied : List String}
    (hM : (db.Migrations s).1 = (applied, none))
    (h : (migrateLocked db migrations s).1 = .returned none) :
    applied = (migrations.take applied.length).map Migration.ID := by
  by_cases hlen : applied.length > migrations.length
  · rw [migrateLocked_too_many db migrations hM hlen] at h
    simp at h
  · have hle : applied.length ≤ migrations.length := Nat.le_of_not_lt hlen
    rcases hc : compareApplied migrations 0 applied with _ | out
    · simpa using matching_of_compareApplied_none migrations applied 0 hc
    · rcases compareApplied_cases migrations applied 0 (by omega) with
        hn | ⟨i, a, mig, _, _, _, _, hf⟩
      · rw [hn] at hc; cases hc
      · rw [migrateLocked_compare_failed db migrations hM hle hf] at h
        simp at h

theorem applies_of_mem {σ ε : Type} (db : Database σ ε) (hist : σ → List String) :
    ∀ (l : List (Migration ε)),
      (∀ m, m ∈ l → ∀ t, (db.Apply m t).1 = none ∧ hist (db.Apply m t).2 = hist t ++ [m.ID]) →
      ∀ t, AppliesSucceed db l t ∧ hist (afterApplies db l t) = hist t ++ l.map Migration.ID := by
  intro l
  induction l with
  | nil => intro _ t; exact ⟨trivial, by simp [afterApplies]⟩
  | cons m rest ih =>
    intro h t
    obtain ⟨h1, h2⟩ := h m (List.mem_cons_self _ _) t
    obtain ⟨k1, k2⟩ := ih (fun x hx => h x (List.mem_cons_of_mem _ hx)) (db.Apply m t).2
    refine ⟨⟨h1, k1⟩, ?_⟩
    simp only [afterApplies]
    rw [k2, h2]
    simp

/-- C16. Over a backend whose `Migrations` returns the recorded history and
whose `Apply` succeeds and appends the identifier to it (as `TestDatabase`
does), after a first run of `Do` that returned `nil` the history is the list
of all identifiers; a second run with the same sequence returns `nil`, makes
no call of `Apply` and leaves the history as it is; and a second run with the
sequence extended by `extra` returns `nil` and applies exactly `extra`. -/
theorem Do_idempotent {σ ε : Type} (db : Database σ ε) (hist : σ → List String)
    (migrations extra : List (Migration ε)) (s : σ) (fuel fuel2 n2 : Nat) (r1 : Run σ ε)
    (hL : ∀ t, hist (db.Lock t).2 = hist t)
    (hU : ∀ t, hist (db.Unlock t).2 = hist t)
    (hM : ∀ t, (db.Migrations t).1 = (hist t, none) ∧ hist (db.Migrations t).2 = hist t)
    (hA : ∀ m, m ∈ migrations ++ extra → ∀ t,
      (db.Apply m t).1 = none ∧ hist (db.Apply m t).2 = hist t ++ [m.ID])
    (hfirst : Do db migrations fuel s = some r1) (hres : r1.result = .returned none)
    (hlock2 : AcquiresAfter db r1.state n2) (hfuel2 : n2 < fuel2) :
    hist r1.state = migrations.map Migration.ID ∧
      (∃ r2, Do db migrations fuel2 r1.state = some r2 ∧ r2.result = .returned none ∧
        applyCalls r2.trace = [] ∧ hist r2.state = hist r1.state) ∧
      (∃ r3, Do db (migrations ++ extra) fuel2 r1.state = some r3 ∧
        r3.result = .returned none ∧ applyCalls r3.trace = extra ∧
        hist r3.state = (migrations ++ extra).map Migration.ID) := by
  have hpend : ∀ (k : Nat) (t : σ), AppliesSucceed db (migrations.drop k) t ∧
      hist (afterApplies db (migrations.drop k) t)
        = hist t ++ (migrations.drop k).map Migration.ID :=
    fun k => applies_of_mem db hist (migrations.drop k) (fun m hm =>
      hA m (List.mem_append_left _ (List.mem_of_mem_drop hm)))
  have hextra := applies_of_mem db hist extra (fun m hm => hA m (List.mem_append_right _ hm))
  have hlocked : ∀ (t : σ) (k : Nat), hist (lockedState db t k) = hist t := by
    intro t k
    unfold lockedState
    rw [hL, hist_lockAttempts db hist hL]
  obtain ⟨n, hn, hacq⟩ := acquiresAfter_of_run db migrations hfirst
  have hrun := Do_of_acquiresAfter db migrations hacq hn
  rw [hfirst] at hrun
  cases hrun
  simp only at hres ⊢
  have hM1 := (hM (lockedState db s n)).1
  have hpre := matching_of_migrateLocked_nil db migrations hM1 hres
  have hML := migrateLocked_matching db migrations hM1 hpre (hpend _ _).1
  have hstate1 : hist (db.Unlock (migrateLocked db migrations (lockedState db s n)).2.1).2
      = migrations.map Migration.ID := by
    rw [hU, hML]
    simp only
    rw [(hpend _ _).2, (hM _).2]
    exact append_pending_ids hpre
  rw [hML] at hlock2 hstate1 ⊢
  simp only at hlock2 hstate1 ⊢
  generalize (db.Unlock (afterApplies db (migrations.drop (hist (lockedState db s n)).length)
    (db.Migrations (lockedState db s n)).2)).2 = s1 at hlock2 hstate1 ⊢
  have hM2 := (hM (lockedState db s1 n2)).1
  rw [hlocked, hstate1] at hM2
  have hlen : (migrations.map Migration.ID).length = migrations.length := List.length_map _ _
  refine ⟨hstate1, ?_, ?_⟩
  · have hpre2 : migrations.map Migration.ID
        = (migrations.take (migrations.map Migration.ID).length).map Migration.ID := by
      rw [hlen, List.take_length]
    have hd : migrations.drop (migrations.map Migration.ID).length = [] := by
      rw [hlen]; exact List.drop_length migrations
    have hML2 := migrateLocked_matching db migrations hM2 hpre2 (by rw [hd]; trivial)
    rw [hd] at hML2
    refine ⟨_, Do_of_acquiresAfter db migrations hlock2 hfuel2, ?_, ?_, ?_⟩
    · rw [hML2]
    · simp only
      rw [hML2]
      exact applyCalls_run n2 []
    · simp only
      rw [hML2]
      simp only [afterApplies]
      rw [hU, (hM _).2, hlocked]
  · have hpre3 : migrations.map Migration.ID
        = ((migrations ++ extra).take (migrations.map Migration.ID).length).map
          Migration.ID := by
      rw [hlen, List.take_left]
    have hd : (migrations ++ extra).drop (migrations.map Migration.ID).length = extra := by
      rw [hlen, List.drop_left]
    have hML3 := migrateLocked_matching db (migrations ++ extra) hM2 hpre3
      (by rw [hd]; exact (hextra _).1)
    rw [hd] at hML3
    refine ⟨_, Do_of_acquiresAfter db (migrations ++ extra) hlock2 hfuel2, ?_, ?_, ?_⟩
    · rw [hML3]
    · simp only
      rw [hML3]
      exact applyCalls_run n2 extra
    · simp only
      rw [hML3]
      simp only
      rw [hU, (hextra _).2, (hM _).2, hlocked, hstate1, List.map_append]

/-- The run of `TestDo`, followed by a second run with the same two migrations
and by one with a third migration appended. -/
theorem Do_idempotent_witness :
    TestDatabase.migrations (afterTestDo.state) = testMigrations.map Migration.ID ∧
      (∃ r2, Do testDatabase testMigrations 1 afterTestDo.state = some r2 ∧
        r2.result = .returned none ∧ applyCalls r2.trace = [] ∧
        TestDatabase.migrations r2.state = TestDatabase.migrations afterTestDo.state) ∧
      (∃ r3, Do testDatabase (testMigrations ++ [TestMigration TestDatabase "migration 3"]) 1
          afterTestDo.state = some r3 ∧
        r3.result = .returned none ∧
        applyCalls r3.trace = [TestMigration TestDatabase "migration 3"] ∧
        TestDatabase.migrations r3.state
          = (testMigrations ++ [TestMigration TestDatabase "migration 3"]).map Migration.ID) :=
  Do_idempotent testDatabase TestDatabase.migrations testMigrations
    [TestMigration TestDatabase "migration 3"] emptyTestDatabase 1 1 0 afterTestDo
    (fun _ => rfl) (fun _ => rfl) (fun _ => ⟨rfl, rfl⟩)
    (by
      intro m hm t
      simp only [testMigrations, List.cons_append, List.nil_append, List.mem_cons,
        List.mem_singleton, List.not_mem_nil, or_false] at hm
      rcases hm with rfl | rfl | rfl <;> exact ⟨rfl, rfl⟩)
    rfl rfl (by decide) (by decide)

/-! ## File migrations -/

theorem Split_append (path : String) : (Split path).1 ++ (Split path).2 = path := by
  apply String.ext
  simp only [Split, String.data_append]
  rw [← List.reverse_append, List.takeWhile_append_dropWhile, List.reverse_reverse]

theorem Split_file_no_separator (path : String) : '/' ∉ (Split path).2.data := by
  simp only [Split]
  intro h
  rw [List.mem_reverse] at h
  have := List.mem_takeWhile_imp h
  simp at this

theorem Split_dir_end (path : String) :
    (Split path).1 = "" ∨ (Split path).1.data.getLast? = some '/' := by
  simp only [Split, List.getLast?_reverse]
  have hnot := List.head?_dropWhile_not (fun c => c != '/') path.data.reverse
  rcases h : (List.dropWhile (fun c => c != '/') path.data.reverse).head? with _ | c
  · left
    rw [List.head?_eq_none_iff] at h
    rw [h]
    rfl
  · right
    rw [h] at hnot
    simp only [bne_eq_false_iff_eq] at hnot
    rw [hnot]

theorem Split_join (d n : String) (hn : '/' ∉ n.data) :
    Split (d ++ "/" ++ n) = (d ++ "/", n) := by
  have hdata : (d ++ "/" ++ n).data.reverse = n.data.reverse ++ '/' :: d.data.reverse := by
    simp only [String.data_append]
    simp
  have hall : ∀ c ∈ n.data.reverse, (fun c => c != '/') c = true := by
    intro c hc
    rw [List.mem_reverse] at hc
    simp only [bne_iff_ne, ne_eq]
    rintro rfl
    exact hn hc
  have htake : (n.data.reverse ++ '/' :: d.data.reverse).takeWhile (fun c => c != '/')
      = n.data.reverse := by
    rw [List.takeWhile_append_of_pos hall]
    simp [List.takeWhile_cons]
  have hdrop : (n.data.reverse ++ '/' :: d.data.reverse).dropWhile (fun c => c != '/')
      = '/' :: d.data.reverse := by
    have := List.takeWhile_append_dropWhile (fun c => c != '/')
      (n.data.reverse ++ '/' :: d.data.reverse)
    rw [htake] at this
    exact List.append_cancel_left this
  unfold Split
  rw [hdata, htake, hdrop]
  refine Prod.ext (String.ext ?_) (String.ext ?_)
  · have : ("/" : String).data = ['/'] := rfl
    simp [String.data_append, this]
  · simp

theorem HasPrefix_dot (name : String) :
    HasPrefix name "." = true ↔ name.data.head? = some '.' := by
  unfold HasPrefix
  have : (".": String).data = ['.'] := rfl
  rw [this]
  cases name.data with
  | nil => simp [startsWith]
  | cons b rest =>
    simp only [startsWith, Bool.and_true, beq_iff_eq, List.head?_cons, Option.some.injEq]
    exact eq_comm

theorem visibleFiles_paths (files : List String) :
    (visibleFiles files).map FileMigration.path
      = files.filter fun f => decide ((Split f).2.data.head? ≠ some '.') := by
  induction files with
  | nil => rfl
  | cons f rest ih =>
    unfold visibleFiles
    by_cases h : (Split f).2.data.head? = some '.'
    · rw [if_pos ((HasPrefix_dot _).mpr h), ih, List.filter_cons_of_neg (by simpa using h)]
    · have hp : ¬ HasPrefix (Split f).2 "." = true := fun hh => h ((HasPrefix_dot _).mp hh)
      rw [if_neg hp, List.map_cons, ih, List.filter_cons_of_pos (by simpa using h)]

theorem leChars_append_left (d a b : List Char) : leChars (d ++ a) (d ++ b) = leChars a b := by
  induction d with
  | nil => rfl
  | cons x xs ih =>
    simp only [List.cons_append, leChars, Nat.lt_irrefl, if_false]
    exact ih

/-- C14. `FileMigration.ID` is the filename without the directory: the path is
a directory part, empty or ending in the separator, followed by the result;
the result holds no separator; it is the whole path when the path holds no
separator; and for every `d` and every separator-free `n`, the `ID` of
`d + "/" + n` is `n`. -/
theorem FileMigration_ID_is_filename (f : FileMigration) :
    (∃ d : String, f.path = d ++ f.ID ∧ (d = "" ∨ d.data.getLast? = some '/')) ∧
      '/' ∉ f.ID.data ∧
      ('/' ∉ f.path.data → f.ID = f.path) ∧
      ∀ d n : String, '/' ∉ n.data → (FileMigration.mk (d ++ "/" ++ n)).ID = n := by
  refine ⟨⟨(Split f.path).1, (Split_append f.path).symm, Split_dir_end f.path⟩,
    Split_file_no_separator f.path, ?_, ?_⟩
  · intro h
    apply String.ext
    simp only [FileMigration.ID, Split]
    have hall : ∀ c ∈ f.path.data.reverse, (fun c => c != '/') c = true := by
      intro c hc
      rw [List.mem_reverse] at hc
      simp only [bne_iff_ne, ne_eq]
      rintro rfl
      exact h hc
    rw [List.takeWhile_eq_self_iff.mpr hall, List.reverse_reverse]
  · intro d n hn
    simp only [FileMigration.ID]
    rw [Split_join d n hn]

theorem FileMigrations_of_glob {Glob : String → List String × Option GoError}
    {dir : String} {files : List String} (h : Glob (dir ++ "/*.sql") = (files, none)) :
    FileMigrations Glob dir = (visibleFiles (sortStrings files), none) := by
  unfold FileMigrations
  rw [h]

theorem sortStrings_sorted (files : List String) :
    (sortStrings files).Sorted fun a b => byCodepoint a b = true := by
  haveI : IsTotal String (fun a b => byCodepoint a b = true) := ⟨byCodepoint_total⟩
  haveI : IsTrans String (fun a b => byCodepoint a b = true) := ⟨byCodepoint_trans⟩
  exact List.sorted_insertionSort _ _

theorem sortStrings_perm (files : List String) : (sortStrings files).Perm files :=
  List.perm_insertionSort _ _

/-- C13. For every list of paths matched by `dir/*.sql`, `FileMigrations`
returns, without error, exactly the matched paths whose filename does not
begin with a dot, each as often as it was matched: no returned migration has
an identifier that begins with a dot, every matched file that is not hidden
is returned, and no file is returned twice when none was matched twice. -/
theorem FileMigrations_returns_visible (Glob : String → List String × Option GoError)
    (dir : String) (files : List String) (hglob : Glob (dir ++ "/*.sql") = (files, none)) :
    (FileMigrations Glob dir).2 = none ∧
      ((FileMigrations Glob dir).1.map FileMigration.path).Perm
        (files.filter fun f => decide ((Split f).2.data.head? ≠ some '.')) ∧
      (∀ m ∈ (FileMigrations Glob dir).1, m.ID.data.head? ≠ some '.') ∧
      (∀ f ∈ files, (Split f).2.data.head? ≠ some '.' →
        FileMigration.mk f ∈ (FileMigrations Glob dir).1) ∧
      (files.Nodup → (FileMigrations Glob dir).1.Nodup) := by
  rw [FileMigrations_of_glob hglob]
  simp only
  have hperm : ((visibleFiles (sortStrings files)).map FileMigration.path).Perm
      (files.filter fun f => decide ((Split f).2.data.head? ≠ some '.')) := by
    rw [visibleFiles_paths]
    exact (sortStrings_perm files).filter _
  refine ⟨trivial, hperm, ?_, ?_, ?_⟩
  · intro m hm
    have h1 : m.path ∈ (visibleFiles (sortStrings files)).map FileMigration.path :=
      List.mem_map_of_mem _ hm
    have h2 := (hperm.mem_iff).mp h1
    rw [List.mem_filter] at h2
    simpa [FileMigration.ID] using h2.2
  · intro f hf hvis
    have h1 : f ∈ files.filter fun f => decide ((Split f).2.data.head? ≠ some '.') := by
      rw [List.mem_filter]
      exact ⟨hf, by simpa using hvis⟩
    have h2 := (hperm.mem_iff).mpr h1
    rw [List.mem_map] at h2
    obtain ⟨m, hm, hpath⟩ := h2
    cases m
    simp only at hpath
    subst hpath
    exact hm
  · intro hnd
    have h1 : (files.filter fun f => decide ((Split f).2.data.head? ≠ some '.')).Nodup :=
      hnd.filter _
    exact List.Nodup.of_map _ ((hperm.nodup_iff).mpr h1)

/-- The directory `fixtures` with a hidden file. -/
theorem FileMigrations_returns_visible_witness :
    (FileMigrations fixturesGlob "./fixtures").2 = none ∧
      ((FileMigrations fixturesGlob "./fixtures").1.map FileMigration.path).Perm
        (["fixtures/file2.sql", "fixtures/.hidden.sql", "fixtures/file1.sql"].filter
          fun f => decide ((Split f).2.data.head? ≠ some '.')) ∧
      (∀ m ∈ (FileMigrations fixturesGlob "./fixtures").1, m.ID.data.head? ≠ some '.') ∧
      (∀ f ∈ ["fixtures/file2.sql", "fixtures/.hidden.sql", "fixtures/file1.sql"],
        (Split f).2.data.head? ≠ some '.' →
        FileMigration.mk f ∈ (FileMigrations fixturesGlob "./fixtures").1) ∧
      (["fixtures/file2.sql", "fixtures/.hidden.sql", "fixtures/file1.sql"].Nodup →
        (FileMigrations fixturesGlob "./fixtures").1.Nodup) :=
  FileMigrations_returns_visible fixturesGlob "./fixtures"
    ["fixtures/file2.sql", "fixtures/.hidden.sql", "fixtures/file1.sql"] rfl

/-- C12, as stated, fails: for the directory `v*`, which holds `z.sql`, next
to a directory `v1`, which holds `a.sql`, the pattern `v*/*.sql` matches both
files, and `FileMigrations` returns the identifiers `z.sql`, `a.sql`: they are
in the order of the full paths and not in ascending order. -/
theorem FileMigrations_order_counterexample :
    (FileMigrations starDirGlob "v*").2 = none ∧
      (FileMigrations starDirGlob "v*").1.map FileMigration.path = ["v*/z.sql", "v1/a.sql"] ∧
      (FileMigrations starDirGlob "v*").1.map FileMigration.ID = ["z.sql", "a.sql"] ∧
      byCodepoint "z.sql" "a.sql" = false ∧
      ¬ ((FileMigrations starDirGlob "v*").1.map FileMigration.ID).Sorted
          fun a b => byCodepoint a b = true := by
  have hids : (FileMigrations starDirGlob "v*").1.map FileMigration.ID = ["z.sql", "a.sql"] := by
    decide
  refine ⟨rfl, by decide, hids, by decide, ?_⟩
  rw [hids]
  intro h
  have := List.rel_of_sorted_cons h "a.sql" (List.mem_singleton.mpr rfl)
  revert this
  decide

/-- C12, amended. For every directory, the list returned by `FileMigrations`
is sorted by full path; when all matched paths have the same directory part
(the part `filepath.Split` puts before the filename), the identifiers of the
returned migrations are in ascending lexical order. -/
theorem FileMigrations_sorted_by_path
    (Glob : String → List String × Option GoError) (dir : String) (files : List String)
    (hglob : Glob (dir ++ "/*.sql") = (files, none)) :
    ((FileMigrations Glob dir).1.map FileMigration.path).Sorted
        (fun a b => byCodepoint a b = true) ∧
      ((∀ f ∈ files, ∀ g ∈ files, (Split f).1 = (Split g).1) →
        ((FileMigrations Glob dir).1.map FileMigration.ID).Sorted
          (fun a b => byCodepoint a b = true)) := by
  rw [FileMigrations_of_glob hglob]
  simp only
  have hpaths : ((visibleFiles (sortStrings files)).map FileMigration.path).Sorted
      (fun a b => byCodepoint a b = true) := by
    rw [visibleFiles_paths]
    exact List.Pairwise.filter _ (sortStrings_sorted files)
  have hmem : ∀ f ∈ (visibleFiles (sortStrings files)).map FileMigration.path, f ∈ files := by
    intro f hf
    rw [visibleFiles_paths, List.mem_filter] at hf
    exact (sortStrings_perm files).mem_iff.mp hf.1
  refine ⟨hpaths, ?_⟩
  intro hone
  have hids : (visibleFiles (sortStrings files)).map FileMigration.ID
      = ((visibleFiles (sortStrings files)).map FileMigration.path).map
          fun f => (Split f).2 := by
    rw [List.map_map]
    rfl
  rw [hids]
  unfold List.Sorted
  rw [List.pairwise_map]
  refine List.Pairwise.imp_of_mem ?_ hpaths
  intro a b ha hb hab
  have hdir := hone a (hmem a ha) b (hmem b hb)
  have hda : a.data = (Split a).1.data ++ (Split a).2.data := by
    have := congrArg String.data (Split_append a)
    simpa using this.symm
  have hdb : b.data = (Split a).1.data ++ (Split b).2.data := by
    have := congrArg String.data (Split_append b)
    rw [hdir]
    simpa using this.symm
  unfold byCodepoint at hab ⊢
  rw [hda, hdb, leChars_append_left] at hab
  exact hab

/-- The current directory, for which the matched paths are bare names: the
migrations come out as `a.sql`, `b.sql`. -/
theorem FileMigrations_sorted_by_path_witness :
    ((FileMigrations currentDirGlob ".").1.map FileMigration.path).Sorted
        (fun a b => byCodepoint a b = true) ∧
      ((FileMigrations currentDirGlob ".").1.map FileMigration.ID).Sorted
        (fun a b => byCodepoint a b = true) :=
  ⟨(FileMigrations_sorted_by_path currentDirGlob "." ["b.sql", ".c.sql", "a.sql"] rfl).1,
    (FileMigrations_sorted_by_path currentDirGlob "." ["b.sql", ".c.sql", "a.sql"] rfl).2
      (by decide)⟩

end Migrate
